import Mathlib

/-!
Verification of the ARXML merger core against its specification.

The Python sources are shallowly embedded: `xml.etree.ElementTree.Element`
becomes the inductive `Element` below (with an explicit `eid` field standing
for the Python object identity `id(...)`, since several functions key on it),
in-place mutation becomes functional update, and code paths that raise an
uncaught exception return `none`.
-/

namespace ARXML

/-- Split a character list at every occurrence of `sep`
(kernel-computable core of Python `str.split` on a one-character separator). -/
def splitCharAux (sep : Char) : List Char → List Char → List String
  | [], acc => [String.mk acc.reverse]
  | c :: cs, acc =>
    if c = sep then String.mk acc.reverse :: splitCharAux sep cs []
    else splitCharAux sep cs (c :: acc)

/-- Python `s.split(sep)` for a one-character separator. -/
def splitChar (sep : Char) (s : String) : List String :=
  splitCharAux sep s.data []

/-- Python `sep.join(parts)`. -/
def joinSep (sep : String) : List String → String
  | [] => ""
  | [x] => x
  | x :: xs => x ++ sep ++ joinSep sep xs

/-- Python `tag.split("\x7d", 1)[1]` when "\x7d" occurs, else `tag`
(used by `_ns` in arxml_merger.py and `_strip_namespace` in arxml_validator.py). -/
def stripNs1 (t : String) : String :=
  match splitChar '\x7d' t with
  | [] => t
  | [_] => t
  | _ :: rest => joinSep "\x7d" rest

/-- Python `tag.split("\x7d")[-1]` (used by `_get_element_key` and
`_get_element_type` in conflict_resolver.py). -/
def stripNsLast (t : String) : String :=
  (splitChar '\x7d' t).getLastD t

/-- Qualified tag construction, e.g. `f"\x7b{ns}\x7dAR-PACKAGE" if ns else "AR-PACKAGE"`. -/
def qual (ns tag : String) : String :=
  if ns = "" then tag else "\x7b" ++ ns ++ "\x7d" ++ tag

/-- Python truthiness of an optional string (`None` and `""` are falsy). -/
def truthy : Option String → Bool
  | none => false
  | some s => !s.isEmpty

/-- Python `s.rsplit("/", 1)[0]`: everything before the last "/", or `s`
itself when there is no "/". -/
def rsplitBefore (s : String) : String :=
  match splitChar '/' s with
  | [] => s
  | [_] => s
  | parts => joinSep "/" parts.dropLast

/-- Shallow embedding of `xml.etree.ElementTree.Element`: tag, attribute
list, text payload and children, plus `eid`, the Python object identity. -/
inductive Element where
  | mk (tag : String) (attrib : List (String × String)) (text : Option String)
       (eid : Nat) (children : List Element)
deriving Repr

mutual
def Element.beq : Element → Element → Bool
  | .mk t1 a1 x1 i1 c1, .mk t2 a2 x2 i2 c2 =>
    t1 == t2 && a1 == a2 && x1 == x2 && i1 == i2 && beqElemList c1 c2

def beqElemList : List Element → List Element → Bool
  | [], [] => true
  | a :: as, b :: bs => Element.beq a b && beqElemList as bs
  | _, _ => false
end

mutual
theorem Element.eq_of_beq : ∀ a b : Element, Element.beq a b = true → a = b
  | .mk t1 a1 x1 i1 c1, .mk t2 a2 x2 i2 c2, h => by
    simp only [Element.beq, Bool.and_eq_true, beq_iff_eq] at h
    obtain ⟨⟨⟨⟨h1, h2⟩, h3⟩, h4⟩, h5⟩ := h
    subst h1; subst h2; subst h3; subst h4
    exact congrArg (Element.mk t1 a1 x1 i1) (eqList_of_beqElemList c1 c2 h5)

theorem eqList_of_beqElemList : ∀ a b : List Element, beqElemList a b = true → a = b
  | [], [], _ => rfl
  | a :: as, b :: bs, h => by
    simp only [beqElemList, Bool.and_eq_true] at h
    exact congrArg₂ (· :: ·) (Element.eq_of_beq a b h.1) (eqList_of_beqElemList as bs h.2)
  | [], _ :: _, h => by simp [beqElemList] at h
  | _ :: _, [], h => by simp [beqElemList] at h
end

mutual
theorem Element.beq_refl : ∀ a : Element, Element.beq a a = true
  | .mk t a x i cs => by
    simp only [Element.beq, Bool.and_eq_true, beq_iff_eq]
    exact ⟨⟨⟨⟨trivial, trivial⟩, trivial⟩, trivial⟩, beqElemList_refl cs⟩

theorem beqElemList_refl : ∀ l : List Element, beqElemList l l = true
  | [] => rfl
  | a :: as => by
    simp only [beqElemList, Bool.and_eq_true]
    exact ⟨Element.beq_refl a, beqElemList_refl as⟩
end

instance : DecidableEq Element := fun a b =>
  match h : Element.beq a b with
  | true => isTrue (Element.eq_of_beq a b h)
  | false => isFalse (fun he => by subst he; rw [Element.beq_refl a] at h; cases h)

def Element.tag : Element → String
  | .mk t _ _ _ _ => t

def Element.attrib : Element → List (String × String)
  | .mk _ a _ _ _ => a

def Element.text : Element → Option String
  | .mk _ _ x _ _ => x

def Element.eid : Element → Nat
  | .mk _ _ _ i _ => i

def Element.children : Element → List Element
  | .mk _ _ _ _ cs => cs

@[simp] theorem Element.tag_mk (t a x i cs) : (Element.mk t a x i cs).tag = t := rfl
@[simp] theorem Element.attrib_mk (t a x i cs) : (Element.mk t a x i cs).attrib = a := rfl
@[simp] theorem Element.text_mk (t a x i cs) : (Element.mk t a x i cs).text = x := rfl
@[simp] theorem Element.eid_mk (t a x i cs) : (Element.mk t a x i cs).eid = i := rfl
@[simp] theorem Element.children_mk (t a x i cs) : (Element.mk t a x i cs).children = cs := rfl

mutual
/-- Document-order traversal: the element itself, then its subtree
(Python `element.iter()`). -/
def Element.iterAll : Element → List Element
  | .mk t a x i cs => .mk t a x i cs :: iterAllList cs

def iterAllList : List Element → List Element
  | [] => []
  | c :: cs => c.iterAll ++ iterAllList cs
end

/-- First direct child whose tag matches exactly (Python `element.find(tag)`). -/
def Element.findChild (e : Element) (tag : String) : Option Element :=
  e.children.find? (fun c => c.tag == tag)

/-- Python `element.findtext(tag)`: `None` when no direct child matches,
else the child's text with `None` read as `""`. -/
def Element.findtext (e : Element) (tag : String) : Option String :=
  (e.findChild tag).map (fun c => c.text.getD "")

/-- Python `element.findtext(".//TAG")`: first matching descendant in
document order (the element itself excluded). -/
def Element.findtextDesc (e : Element) (tag : String) : Option String :=
  ((iterAllList e.children).find? (fun c => c.tag == tag)).map (fun c => c.text.getD "")

/-! ## Structural validator (arxml_validator.py, `AutosarStructureValidator`) -/

inductive ValidationSeverity where
  | info | warning | error | critical
deriving DecidableEq, Repr

structure ValidationIssue where
  severity : ValidationSeverity
  message : String
  element_path : Option String := none
  suggestion : Option String := none
deriving DecidableEq, Repr

/-- `_get_element_path`: the simplified implementation returns only
"/" plus the namespace-stripped tag. -/
def get_element_path (e : Element) : String :=
  "/" ++ stripNs1 e.tag

/-- `_same_scope`: compares the two paths with their last "/"-component
removed. -/
def same_scope (p1 p2 : String) : Bool :=
  rsplitBefore p1 == rsplitBefore p2

/-- The issue `_validate_short_names` emits for a duplicate. -/
def dupIssue (text path : String) : ValidationIssue :=
  { severity := .error
    message := "Doppelter SHORT-NAME im gleichen Scope: " ++ text
    element_path := some path
    suggestion := some "SHORT-NAMEs muessen innerhalb ihres Scopes eindeutig sein." }

/-- Loop body of `_validate_short_names`: walk all elements in document
order, remembering the first path of each seen SHORT-NAME text. -/
def vsnGo : List Element → List (String × String) → List ValidationIssue
  | [], _ => []
  | e :: rest, seen =>
    if stripNs1 e.tag == "SHORT-NAME" && truthy e.text then
      let t := e.text.getD ""
      let path := get_element_path e
      match seen.find? (fun p => p.1 == t) with
      | some existing =>
          (if same_scope path existing.2 then [dupIssue t path] else []) ++ vsnGo rest seen
      | none => vsnGo rest (seen ++ [(t, path)])
    else
      vsnGo rest seen

/-- `AutosarStructureValidator._validate_short_names`. -/
def validate_short_names (root : Element) : List ValidationIssue :=
  vsnGo root.iterAll []

/-- The SHORT-NAME texts of a list of elements, restricted to elements with
truthy text (exactly the occurrences `_validate_short_names` examines). -/
def textsOf (elems : List Element) : List String :=
  elems.filterMap (fun e =>
    if stripNs1 e.tag == "SHORT-NAME" && truthy e.text then some (e.text.getD "") else none)

/-- The SHORT-NAME texts of a document in document order. -/
def snTexts (root : Element) : List String :=
  textsOf root.iterAll

/-- All occurrences of a string that already appeared strictly earlier in the
list (or in `known`): the text-level shadow of the validator's seen-set walk. -/
def dupsFrom (known : List String) : List String → List String
  | [] => []
  | t :: ts => if t ∈ known then t :: dupsFrom known ts else dupsFrom (known ++ [t]) ts

/-- Occurrences of a SHORT-NAME text after its first occurrence, document-wide. -/
def repeatedOccurrences (l : List String) : List String :=
  dupsFrom [] l

theorem textsOf_cons_pos (e : Element) (rest : List Element)
    (hc : (stripNs1 e.tag == "SHORT-NAME" && truthy e.text) = true) :
    textsOf (e :: rest) = e.text.getD "" :: textsOf rest := by
  simp only [textsOf, List.filterMap_cons, hc, if_true]

theorem textsOf_cons_neg (e : Element) (rest : List Element)
    (hc : ¬(stripNs1 e.tag == "SHORT-NAME" && truthy e.text) = true) :
    textsOf (e :: rest) = textsOf rest := by
  have hc2 : ¬(stripNs1 e.tag = "SHORT-NAME" ∧ truthy e.text = true) := by simpa using hc
  simp [textsOf, List.filterMap_cons, hc2]

theorem vsnGo_eq (elems : List Element) : ∀ seen : List (String × String),
    (∀ p ∈ seen, p.2 = "/SHORT-NAME") →
    vsnGo elems seen
      = (dupsFrom (seen.map Prod.fst) (textsOf elems)).map (fun t => dupIssue t "/SHORT-NAME") := by
  induction elems with
  | nil => intro seen _; simp [vsnGo, textsOf, dupsFrom]
  | cons e rest ih =>
    intro seen hseen
    by_cases hc : (stripNs1 e.tag == "SHORT-NAME" && truthy e.text) = true
    · have htag : stripNs1 e.tag = "SHORT-NAME" := by
        have := (Bool.and_eq_true _ _).mp hc
        exact beq_iff_eq.mp this.1
      have hpath : get_element_path e = "/SHORT-NAME" := by
        simp [get_element_path, htag]
      rw [textsOf_cons_pos e rest hc]
      cases hfind : seen.find? (fun p => p.1 == (e.text.getD "")) with
      | some existing =>
        have hmem : existing ∈ seen := List.mem_of_find?_eq_some hfind
        have hex1 : existing.1 = e.text.getD "" := by
          have h1 := List.find?_some hfind
          simpa using h1
        have hex2 : existing.2 = "/SHORT-NAME" := hseen existing hmem
        have hknown : e.text.getD "" ∈ seen.map Prod.fst :=
          hex1 ▸ List.mem_map_of_mem Prod.fst hmem
        have hscope : same_scope (get_element_path e) existing.2 = true := by
          rw [hpath, hex2]; decide
        simp only [vsnGo, hc, if_true, hfind, hscope]
        rw [ih seen hseen]
        simp [dupsFrom, hknown, hpath]
      | none =>
        have hnot : e.text.getD "" ∉ seen.map Prod.fst := by
          intro hmem
          obtain ⟨p, hp, hp1⟩ := List.mem_map.mp hmem
          have := List.find?_eq_none.mp hfind p hp
          simp [hp1] at this
        simp only [vsnGo, hc, if_true, hfind]
        rw [ih (seen ++ [(e.text.getD "", get_element_path e)])
              (by intro p hp
                  rcases List.mem_append.mp hp with h | h
                  · exact hseen p h
                  · simp at h; subst h; exact hpath)]
        simp [dupsFrom, hnot]
    · rw [textsOf_cons_neg e rest hc]
      simp only [vsnGo, hc, if_false]
      exact ih seen hseen

/-- Shared constructor for test documents: an element with no attributes and
no text. -/
def el (tag : String) (eid : Nat) (children : List Element) : Element :=
  .mk tag [] none eid children

/-- Shared constructor for test documents: a childless element carrying text. -/
def txt (tag : String) (eid : Nat) (s : String) : Element :=
  .mk tag [] (some s) eid []

/-- A document whose two `X`-named packages live under *different* parents:
`P1/X` and `P2/X` are cross-scope namesakes, never siblings. -/
def crossScopeDoc : Element :=
  el "AUTOSAR" 0 [el "AR-PACKAGES" 1 [
    el "AR-PACKAGE" 2 [txt "SHORT-NAME" 3 "P1",
      el "AR-PACKAGES" 4 [el "AR-PACKAGE" 5 [txt "SHORT-NAME" 6 "X"]]],
    el "AR-PACKAGE" 7 [txt "SHORT-NAME" 8 "P2",
      el "AR-PACKAGES" 9 [el "AR-PACKAGE" 10 [txt "SHORT-NAME" 11 "X"]]]]]

/-- C1 counterexample: the two packages named `X` in `crossScopeDoc` sit under
different parents, yet `_validate_short_names` reports a severity-ERROR issue
for them — cross-scope duplicates are reported, contrary to the claim. -/
theorem C1_counterexample :
    validate_short_names crossScopeDoc = [dupIssue "X" "/SHORT-NAME"] := by decide

/-- C1 (amended): the validator reports one severity-ERROR issue for every
occurrence after the first of each SHORT-NAME text anywhere in the document,
regardless of parent: the computed element path is always "/SHORT-NAME", so
the same-scope test never filters anything out and duplicates are counted
document-wide, not per sibling scope. -/
theorem C1_amended (root : Element) :
    validate_short_names root
      = (repeatedOccurrences (snTexts root)).map (fun t => dupIssue t "/SHORT-NAME") := by
  have := vsnGo_eq root.iterAll [] (by intro p hp; cases hp)
  simpa [validate_short_names, snTexts, repeatedOccurrences] using this

/-! ## Conflict resolver (conflict_resolver.py) -/

inductive ConflictType where
  | DUPLICATE_ELEMENT | DIFFERENT_ATTRIBUTES | DIFFERENT_CONTENT
  | INCOMPATIBLE_TYPES | REFERENCE_CONFLICT | VERSION_MISMATCH
deriving DecidableEq, Repr

/-- The `ConflictType(value)` enum constructor: `none` models the `ValueError`
raised on an unknown value. -/
def ConflictType.ofString (s : String) : Option ConflictType :=
  if s = "duplicate_element" then some .DUPLICATE_ELEMENT
  else if s = "different_attributes" then some .DIFFERENT_ATTRIBUTES
  else if s = "different_content" then some .DIFFERENT_CONTENT
  else if s = "incompatible_types" then some .INCOMPATIBLE_TYPES
  else if s = "reference_conflict" then some .REFERENCE_CONFLICT
  else if s = "version_mismatch" then some .VERSION_MISMATCH
  else none

inductive ResolutionStrategy where
  | KEEP_FIRST | KEEP_LAST | MERGE_ATTRIBUTES | MERGE_CONTENT
  | USER_CHOICE | RULE_BASED | SKIP
deriving DecidableEq, Repr

/-- The `ResolutionStrategy(value)` enum constructor. -/
def ResolutionStrategy.ofString (s : String) : Option ResolutionStrategy :=
  if s = "keep_first" then some .KEEP_FIRST
  else if s = "keep_last" then some .KEEP_LAST
  else if s = "merge_attributes" then some .MERGE_ATTRIBUTES
  else if s = "merge_content" then some .MERGE_CONTENT
  else if s = "user_choice" then some .USER_CHOICE
  else if s = "rule_based" then some .RULE_BASED
  else if s = "skip" then some .SKIP
  else none

structure ConflictRule where
  element_type : String
  conflict_type : ConflictType
  resolution_strategy : ResolutionStrategy
  priority : Int := 0
  conditions : Option (List (String × String)) := none
  custom_handler : Option String := none
deriving DecidableEq, Repr

structure ConflictContext where
  element1 : Element
  element2 : Element
  source_file1 : String
  source_file2 : String
  element_path : String
  conflict_type : ConflictType
deriving DecidableEq, Repr

structure ConflictResolution where
  resolved_element : Option Element
  strategy_used : ResolutionStrategy
  description : String
  warnings : List String
  user_input_required : Bool := false
deriving DecidableEq, Repr

/-- `RuleEngine._load_default_rules`: the four built-in rules, in
declaration order. -/
def defaultRules : List ConflictRule :=
  [ { element_type := "I-SIGNAL", conflict_type := .DUPLICATE_ELEMENT,
      resolution_strategy := .KEEP_FIRST, priority := 10 },
    { element_type := "SENDER-RECEIVER-INTERFACE", conflict_type := .DIFFERENT_ATTRIBUTES,
      resolution_strategy := .MERGE_ATTRIBUTES, priority := 8 },
    { element_type := "PRIMITIVE-TYPE", conflict_type := .DUPLICATE_ELEMENT,
      resolution_strategy := .KEEP_LAST, priority := 5 },
    { element_type := "ECU-INSTANCE", conflict_type := .DUPLICATE_ELEMENT,
      resolution_strategy := .USER_CHOICE, priority := 15 } ]

/-- One rule object of the JSON rule file, with its still-unvalidated
string fields (`rule_data` in `load_rules_from_file`). -/
structure RawRule where
  element_type : String
  conflict_type : String
  resolution_strategy : String
  priority : Option Int := none
  conditions : Option (List (String × String)) := none
  custom_handler : Option String := none
deriving DecidableEq, Repr

/-- The body of the loading loop for one rule: building the `ConflictRule`
raises (`none`) iff `conflict_type` or `resolution_strategy` is unknown. -/
def parseRule (r : RawRule) : Option ConflictRule :=
  match ConflictType.ofString r.conflict_type, ResolutionStrategy.ofString r.resolution_strategy with
  | some ct, some rs =>
      some { element_type := r.element_type, conflict_type := ct, resolution_strategy := rs,
             priority := r.priority.getD 0, conditions := r.conditions,
             custom_handler := r.custom_handler }
  | _, _ => none

/-- Stable insertion (before the first element of not-larger priority),
yielding Python's stable descending `list.sort(key=priority, reverse=True)`. -/
def insertDesc (r : ConflictRule) : List ConflictRule → List ConflictRule
  | [] => [r]
  | x :: xs => if r.priority ≥ x.priority then r :: x :: xs else x :: insertDesc r xs

/-- Python `rules.sort(key=lambda r: r.priority, reverse=True)` (stable). -/
def sortRulesDesc (l : List ConflictRule) : List ConflictRule :=
  l.foldr insertDesc []

/-- Loop of `RuleEngine.load_rules_from_file`: rules are appended one by one;
the first malformed rule raises, the surrounding `except` swallows the error
and leaves the rules appended so far in place (and skips the final sort). -/
def loadLoop (acc : List ConflictRule) : List RawRule → List ConflictRule
  | [] => sortRulesDesc acc
  | r :: rs =>
    match parseRule r with
    | some rule => loadLoop (acc ++ [rule]) rs
    | none => acc

/-- `RuleEngine.load_rules_from_file`, starting from the engine's current
rule list `prior`. -/
def load_rules_from_file (prior : List ConflictRule) (fileRules : List RawRule) :
    List ConflictRule :=
  loadLoop prior fileRules

/-- `RuleEngine._check_conditions` (returns `True` unconditionally). -/
def check_conditions (_ : Option (List (String × String))) (_ : ConflictContext) : Bool :=
  true

/-- Python truthiness of the optional `conditions` dict. -/
def condTruthy : Option (List (String × String)) → Bool
  | none => false
  | some l => !l.isEmpty

/-- Scan loop of `RuleEngine.find_applicable_rule`. -/
def findRuleGo (et : String) (ctx : ConflictContext) : List ConflictRule → Option ConflictRule
  | [] => none
  | rule :: rest =>
    if (rule.element_type == et || rule.element_type == "*")
        && rule.conflict_type == ctx.conflict_type then
      if condTruthy rule.conditions && !check_conditions rule.conditions ctx then
        findRuleGo et ctx rest
      else
        some rule
    else
      findRuleGo et ctx rest

/-- `RuleEngine.find_applicable_rule`: first rule in list order whose
element type matches (or is a wildcard) and whose conflict type matches
the context; a rule with truthy conditions that fail the condition check
is skipped (the check itself always succeeds). -/
def find_applicable_rule (rules : List ConflictRule) (ctx : ConflictContext) :
    Option ConflictRule :=
  findRuleGo (stripNs1 ctx.element1.tag) ctx rules

/-- `AutomaticResolver._get_element_key`: (last-"\x7d"-component of the tag,
first descendant SHORT-NAME text), falling back to the object identity when
the short name is missing or empty. -/
def get_element_key (e : Element) : String :=
  let tag := stripNsLast e.tag
  match e.findtextDesc "SHORT-NAME" with
  | some s => if s.isEmpty then tag ++ ":" ++ toString e.eid else tag ++ ":" ++ s
  | none => tag ++ ":" ++ toString e.eid

/-- Python dict assignment `d[k] = v`: replace in place or append. -/
def upsert (m : List (String × α)) (k : String) (v : α) : List (String × α) :=
  match m with
  | [] => [(k, v)]
  | (k0, v0) :: rest => if k0 = k then (k, v) :: rest else (k0, v0) :: upsert rest k v

/-- Fold a list of pairs into a dict, later keys overwriting earlier ones. -/
def upsertAll (m : List (String × α)) (l : List (String × α)) : List (String × α) :=
  l.foldl (fun m kv => upsert m kv.1 kv.2) m

/-- `AutomaticResolver._keep_first`. -/
def keep_first (ctx : ConflictContext) : ConflictResolution :=
  { resolved_element := some ctx.element1, strategy_used := .KEEP_FIRST,
    description := "Erstes Element aus " ++ ctx.source_file1 ++ " beibehalten",
    warnings := [] }

/-- `AutomaticResolver._keep_last`. -/
def keep_last (ctx : ConflictContext) : ConflictResolution :=
  { resolved_element := some ctx.element2, strategy_used := .KEEP_LAST,
    description := "Letztes Element aus " ++ ctx.source_file2 ++ " beibehalten",
    warnings := [] }

/-- `AutomaticResolver._merge_attributes`: a fresh element (identity
`freshEid`) with element1's tag/text/children and the attribute dicts of both
elements merged, element2 overwriting element1. -/
def merge_attributes (freshEid : Nat) (ctx : ConflictContext) : ConflictResolution :=
  let merged : Element :=
    .mk ctx.element1.tag
        (upsertAll (upsertAll [] ctx.element1.attrib) ctx.element2.attrib)
        ctx.element1.text freshEid ctx.element1.children
  let conflicting :=
    (ctx.element1.attrib.map Prod.fst).filter (fun k => k ∈ ctx.element2.attrib.map Prod.fst)
  { resolved_element := some merged, strategy_used := .MERGE_ATTRIBUTES,
    description := "Attribute zusammengefuehrt",
    warnings :=
      if conflicting.isEmpty then []
      else ["Ueberschriebene Attribute: " ++ joinSep ", " conflicting.dedup] }

/-- The children dict `_merge_content` builds: element1's children then
element2's children, keyed by `_get_element_key`, later entries overwriting. -/
def contentMap (e1 e2 : Element) : List (String × Element) :=
  upsertAll (upsertAll [] (e1.children.map (fun c => (get_element_key c, c))))
    (e2.children.map (fun c => (get_element_key c, c)))

/-- `AutomaticResolver._merge_content`: a fresh element with element1's
tag/attributes/text and the values of the children dict as children. -/
def merge_content (freshEid : Nat) (ctx : ConflictContext) : ConflictResolution :=
  let merged : Element :=
    .mk ctx.element1.tag ctx.element1.attrib ctx.element1.text freshEid
        ((contentMap ctx.element1 ctx.element2).map Prod.snd)
  { resolved_element := some merged, strategy_used := .MERGE_CONTENT,
    description := "Inhalte zusammengefuehrt", warnings := [] }

/-- `AutomaticResolver._skip`. -/
def skipResolution (_ctx : ConflictContext) : ConflictResolution :=
  { resolved_element := none, strategy_used := .SKIP,
    description := "Element uebersprungen",
    warnings := ["Element wurde aufgrund von Konflikten uebersprungen"] }

/-- Enum rendering used in the fallback messages. -/
def strategyName : ResolutionStrategy → String
  | .KEEP_FIRST => "ResolutionStrategy.KEEP_FIRST"
  | .KEEP_LAST => "ResolutionStrategy.KEEP_LAST"
  | .MERGE_ATTRIBUTES => "ResolutionStrategy.MERGE_ATTRIBUTES"
  | .MERGE_CONTENT => "ResolutionStrategy.MERGE_CONTENT"
  | .USER_CHOICE => "ResolutionStrategy.USER_CHOICE"
  | .RULE_BASED => "ResolutionStrategy.RULE_BASED"
  | .SKIP => "ResolutionStrategy.SKIP"

/-- `AutomaticResolver.resolve_automatically`: the handler dict holds exactly
the five automatic strategies; any other strategy takes the no-handler branch
and degrades to keep-first with a warning. -/
def resolve_automatically (freshEid : Nat) (ctx : ConflictContext)
    (strategy : ResolutionStrategy) : ConflictResolution :=
  match strategy with
  | .KEEP_FIRST => keep_first ctx
  | .KEEP_LAST => keep_last ctx
  | .MERGE_ATTRIBUTES => merge_attributes freshEid ctx
  | .MERGE_CONTENT => merge_content freshEid ctx
  | .SKIP => skipResolution ctx
  | s =>
    { resolved_element := some ctx.element1, strategy_used := .KEEP_FIRST,
      description := "Unbekannte Strategie " ++ strategyName s ++ ", verwende KEEP_FIRST",
      warnings := ["Strategie " ++ strategyName s ++ " nicht implementiert"] }

/-! ## C2: rejection of malformed rule files -/

/-- A well-formed rule as the loader would accept it. -/
def c2Good : RawRule :=
  { element_type := "I-SIGNAL-GROUP", conflict_type := "duplicate_element",
    resolution_strategy := "keep_last", priority := some 7 }

/-- A rule with an unknown `conflict_type` value. -/
def c2Bad : RawRule :=
  { element_type := "I-SIGNAL", conflict_type := "no_such_conflict",
    resolution_strategy := "keep_first" }

/-- C2 counterexample: a rule file whose second rule has an unknown
conflict_type is not rejected as a whole — the first rule has already been
appended when the exception fires, so the rule list afterwards differs from
the rule list before the load. -/
theorem C2_counterexample :
    load_rules_from_file defaultRules [c2Good, c2Bad] ≠ defaultRules ∧
    load_rules_from_file defaultRules [c2Good, c2Bad]
      = defaultRules ++ [{ element_type := "I-SIGNAL-GROUP",
                           conflict_type := .DUPLICATE_ELEMENT,
                           resolution_strategy := .KEEP_LAST, priority := 7 }] := by
  constructor
  · decide
  · decide

/-- The rules of the longest prefix of the file that parses. -/
def validPrefixRules (raws : List RawRule) : List ConflictRule :=
  (raws.takeWhile (fun r => (parseRule r).isSome)).filterMap parseRule

/-- C2 (amended): a rule whose conflict_type or resolution_strategy is
unknown aborts the load at that rule, but the file is not rejected as a
whole: every rule before the offending one stays appended to the prior rule
list (and the final priority sort is skipped).  Only a fully valid file is
appended completely and then sorted by descending priority. -/
theorem C2_amended (prior : List ConflictRule) (raws : List RawRule) :
    ((∃ r ∈ raws, parseRule r = none) →
      load_rules_from_file prior raws = prior ++ validPrefixRules raws) ∧
    ((∀ r ∈ raws, (parseRule r).isSome) →
      load_rules_from_file prior raws = sortRulesDesc (prior ++ raws.filterMap parseRule)) := by
  induction raws generalizing prior with
  | nil =>
    constructor
    · rintro ⟨r, hr, -⟩; cases hr
    · intro _; simp [load_rules_from_file, loadLoop]
  | cons r rs ih =>
    cases hp : parseRule r with
    | some rule =>
      have hstep : load_rules_from_file prior (r :: rs)
          = load_rules_from_file (prior ++ [rule]) rs := by
        simp [load_rules_from_file, loadLoop, hp]
      constructor
      · rintro ⟨b, hb, hbad⟩
        rcases List.mem_cons.mp hb with rfl | hb
        · rw [hp] at hbad; cases hbad
        · rw [hstep, (ih (prior ++ [rule])).1 ⟨b, hb, hbad⟩]
          simp [validPrefixRules, List.takeWhile_cons, hp]
      · intro hall
        rw [hstep, (ih (prior ++ [rule])).2 (fun x hx => hall x (List.mem_cons_of_mem r hx))]
        simp [hp]
    | none =>
      constructor
      · intro _
        simp [load_rules_from_file, loadLoop, hp, validPrefixRules, List.takeWhile_cons]
      · intro hall
        have := hall r (List.mem_cons_self r rs)
        rw [hp] at this; cases this

/-- C2 amended witness: both branches at concrete inputs — a file whose
second rule is malformed keeps the valid first rule appended; a fully valid
file is appended and sorted. -/
theorem C2_amended_witness :
    load_rules_from_file defaultRules [c2Good, c2Bad]
        = defaultRules ++ validPrefixRules [c2Good, c2Bad] ∧
    load_rules_from_file defaultRules [c2Good]
        = sortRulesDesc (defaultRules ++ [c2Good].filterMap parseRule) :=
  ⟨(C2_amended defaultRules [c2Good, c2Bad]).1 ⟨c2Bad, by decide, by decide⟩,
   (C2_amended defaultRules [c2Good]).2 (by decide)⟩

/-! ## C5: loaded rules override built-in defaults -/

/-- The rule file of the precedence test: `(I-SIGNAL, duplicate_element)`
mapped to `keep_last` with priority 20. -/
def c5FileRule : RawRule :=
  { element_type := "I-SIGNAL", conflict_type := "duplicate_element",
    resolution_strategy := "keep_last", priority := some 20 }

/-- The engine's rule list after loading the precedence-test file over the
built-in defaults. -/
def c5LoadedRules : List ConflictRule :=
  load_rules_from_file defaultRules [c5FileRule]

/-- The loaded priority-20 keep-last rule. -/
def c5Rule : ConflictRule :=
  { element_type := "I-SIGNAL", conflict_type := .DUPLICATE_ELEMENT,
    resolution_strategy := .KEEP_LAST, priority := 20 }

/-- C5: after loading the priority-20 `keep_last` rule for
`(I-SIGNAL, duplicate_element)`, `find_applicable_rule` returns it — not the
built-in priority-10 `keep_first` rule — for every conflict context whose
first element has tag I-SIGNAL and whose category is DUPLICATE_ELEMENT. -/
theorem C5_rule_precedence (ctx : ConflictContext)
    (h1 : stripNs1 ctx.element1.tag = "I-SIGNAL")
    (h2 : ctx.conflict_type = .DUPLICATE_ELEMENT) :
    find_applicable_rule c5LoadedRules ctx = some c5Rule := by
  have hrules : c5LoadedRules
      = [c5Rule,
         { element_type := "ECU-INSTANCE", conflict_type := .DUPLICATE_ELEMENT,
           resolution_strategy := .USER_CHOICE, priority := 15 },
         { element_type := "I-SIGNAL", conflict_type := .DUPLICATE_ELEMENT,
           resolution_strategy := .KEEP_FIRST, priority := 10 },
         { element_type := "SENDER-RECEIVER-INTERFACE", conflict_type := .DIFFERENT_ATTRIBUTES,
           resolution_strategy := .MERGE_ATTRIBUTES, priority := 8 },
         { element_type := "PRIMITIVE-TYPE", conflict_type := .DUPLICATE_ELEMENT,
           resolution_strategy := .KEEP_LAST, priority := 5 }] := by decide
  rw [find_applicable_rule, hrules, h1]
  simp [findRuleGo, condTruthy, c5Rule, h2]

/-- C5 witness at a concrete I-SIGNAL duplicate conflict. -/
theorem C5_witness :
    stripNs1 (Element.mk "I-SIGNAL" [] none 0 []).tag = "I-SIGNAL" ∧
    find_applicable_rule c5LoadedRules
      { element1 := .mk "I-SIGNAL" [] none 0 [], element2 := .mk "I-SIGNAL" [] none 1 [],
        source_file1 := "a.arxml", source_file2 := "b.arxml",
        element_path := "/AUTOSAR", conflict_type := .DUPLICATE_ELEMENT }
      = some c5Rule :=
  ⟨by decide,
   C5_rule_precedence
     { element1 := .mk "I-SIGNAL" [] none 0 [], element2 := .mk "I-SIGNAL" [] none 1 [],
       source_file1 := "a.arxml", source_file2 := "b.arxml",
       element_path := "/AUTOSAR", conflict_type := .DUPLICATE_ELEMENT }
     (by decide) rfl⟩

/-! ## C7: unknown strategies degrade to keep-first -/

/-- C7: automatic resolution with a strategy that has no registered handler
(anything outside keep_first, keep_last, merge_attributes, merge_content,
skip) never fails: it keeps the first element, reports KEEP_FIRST as the
strategy used, and carries a warning. -/
theorem C7_unknown_strategy (freshEid : Nat) (ctx : ConflictContext)
    (s : ResolutionStrategy)
    (hs : s ∉ ([.KEEP_FIRST, .KEEP_LAST, .MERGE_ATTRIBUTES, .MERGE_CONTENT, .SKIP] :
      List ResolutionStrategy)) :
    (resolve_automatically freshEid ctx s).resolved_element = some ctx.element1 ∧
    (resolve_automatically freshEid ctx s).strategy_used = .KEEP_FIRST ∧
    (resolve_automatically freshEid ctx s).warnings ≠ [] := by
  cases s <;> simp_all [resolve_automatically]

/-- C7 witness: the USER_CHOICE strategy has no automatic handler. -/
theorem C7_witness :
    (ResolutionStrategy.USER_CHOICE ∉
      ([.KEEP_FIRST, .KEEP_LAST, .MERGE_ATTRIBUTES, .MERGE_CONTENT, .SKIP] :
        List ResolutionStrategy)) ∧
    (resolve_automatically 0
        { element1 := el "I-SIGNAL" 0 [], element2 := el "I-SIGNAL" 1 [],
          source_file1 := "a.arxml", source_file2 := "b.arxml",
          element_path := "/AUTOSAR", conflict_type := .DUPLICATE_ELEMENT }
        .USER_CHOICE).strategy_used = .KEEP_FIRST :=
  ⟨by decide,
   (C7_unknown_strategy 0
     { element1 := el "I-SIGNAL" 0 [], element2 := el "I-SIGNAL" 1 [],
       source_file1 := "a.arxml", source_file2 := "b.arxml",
       element_path := "/AUTOSAR", conflict_type := .DUPLICATE_ELEMENT }
     .USER_CHOICE (by decide)).2.1⟩

/-! ## C10: dict behaviour of `_merge_content` -/

/-- A child is "named" when it has a truthy descendant SHORT-NAME text
(the condition under which `_get_element_key` uses the name, not the id). -/
def hasShortName (e : Element) : Bool :=
  truthy (e.findtextDesc "SHORT-NAME")

theorem get_element_key_nameless (e : Element) (h : hasShortName e = false) :
    get_element_key e = stripNsLast e.tag ++ ":" ++ toString e.eid := by
  unfold get_element_key
  cases hf : e.findtextDesc "SHORT-NAME" with
  | none => simp
  | some s =>
    have hs : s.isEmpty = true := by simpa [hasShortName, hf, truthy] using h
    simp [hs]

theorem lookup_upsert (m : List (String × α)) (k : String) (v : α) (q : String) :
    List.lookup q (upsert m k v) = if q = k then some v else List.lookup q m := by
  induction m with
  | nil =>
    by_cases h : q = k
    · subst h; simp [upsert, List.lookup]
    · have hb : (q == k) = false := beq_eq_false_iff_ne.mpr h
      simp [upsert, List.lookup, hb, h]
  | cons p rest ih =>
    obtain ⟨k0, v0⟩ := p
    by_cases h0 : k0 = k
    · subst h0
      by_cases h : q = k0
      · subst h; simp [upsert, List.lookup]
      · have hb : (q == k0) = false := beq_eq_false_iff_ne.mpr h
        simp [upsert, List.lookup, hb, h]
    · by_cases h : q = k0
      · subst h
        have hqk : ¬q = k := h0
        simp [upsert, List.lookup, h0, hqk]
      · have hb : (q == k0) = false := beq_eq_false_iff_ne.mpr h
        simp [upsert, List.lookup, h0, hb, ih]

theorem mem_values_of_lookup (m : List (String × α)) (k : String) (v : α)
    (h : List.lookup k m = some v) : v ∈ m.map Prod.snd := by
  induction m with
  | nil => cases h
  | cons p rest ih =>
    obtain ⟨k0, v0⟩ := p
    by_cases hk : k = k0
    · subst hk
      simp [List.lookup] at h
      simp [h]
    · have hne : (k == k0) = false := by simp [hk]
      simp [List.lookup, hne] at h
      simp [ih h]

theorem keys_upsert (m : List (String × α)) (k : String) (v : α) :
    (upsert m k v).map Prod.fst
      = if k ∈ m.map Prod.fst then m.map Prod.fst else m.map Prod.fst ++ [k] := by
  induction m with
  | nil => simp [upsert]
  | cons p rest ih =>
    obtain ⟨k0, v0⟩ := p
    by_cases h0 : k0 = k
    · subst h0; simp [upsert]
    · have : ¬k = k0 := fun h => h0 h.symm
      by_cases hk : k ∈ rest.map Prod.fst <;> simp [upsert, h0, this, ih, hk]

theorem nodup_keys_upsert (m : List (String × α)) (k : String) (v : α)
    (h : (m.map Prod.fst).Nodup) : ((upsert m k v).map Prod.fst).Nodup := by
  rw [keys_upsert]
  by_cases hk : k ∈ m.map Prod.fst
  · simpa [hk]
  · simpa [hk, List.nodup_append] using h

theorem lookup_of_mem_nodup (m : List (String × α)) (k : String) (v : α)
    (hnd : (m.map Prod.fst).Nodup) (hm : (k, v) ∈ m) : List.lookup k m = some v := by
  induction m with
  | nil => cases hm
  | cons p rest ih =>
    obtain ⟨k0, v0⟩ := p
    rcases List.mem_cons.mp hm with h | h
    · cases h; simp [List.lookup]
    · have hk : k ≠ k0 := by
        intro he; subst he
        exact (List.nodup_cons.mp hnd).1 (List.mem_map.mpr ⟨(k, v), h, rfl⟩)
      have hne : (k == k0) = false := by simp [hk]
      simp [List.lookup, hne]
      exact ih (List.nodup_cons.mp hnd).2 h

/-- Every entry of a map built from `(get_element_key c, c)` pairs keys its
value by its own element key. -/
def GoodPair (p : String × Element) : Prop := p.1 = get_element_key p.2

theorem goodpairs_upsert (m : List (String × Element)) (c : Element)
    (h : ∀ p ∈ m, GoodPair p) :
    ∀ p ∈ upsert m (get_element_key c) c, GoodPair p := by
  induction m with
  | nil => intro p hp; simp [upsert] at hp; subst hp; rfl
  | cons q rest ih =>
    obtain ⟨k0, v0⟩ := q
    intro p hp
    by_cases h0 : k0 = get_element_key c
    · simp [upsert, h0] at hp
      rcases hp with hp | hp
      · subst hp; rfl
      · exact h p (List.mem_cons_of_mem _ hp)
    · simp [upsert, h0] at hp
      rcases hp with hp | hp
      · subst hp; exact h (k0, v0) (List.mem_cons_self _ _)
      · exact ih (fun q hq => h q (List.mem_cons_of_mem _ hq)) p hp

/-- `upsertAll` over element/key pairs: writing a key whose every later
writer agrees with the stored value leaves the stored value in place. -/
theorem lookup_upsertAll_preserved (cs : List Element) (m : List (String × Element))
    (k : String) (v : Element) (hl : List.lookup k m = some v)
    (hagree : ∀ d ∈ cs, get_element_key d = k → d = v) :
    List.lookup k (upsertAll m (cs.map (fun c => (get_element_key c, c)))) = some v := by
  induction cs generalizing m with
  | nil => simpa [upsertAll]
  | cons d rest ih =>
    have hstep : upsertAll m ((d :: rest).map (fun c => (get_element_key c, c)))
        = upsertAll (upsert m (get_element_key d) d)
            (rest.map (fun c => (get_element_key c, c))) := by
      simp [upsertAll]
    rw [hstep]
    by_cases hd : get_element_key d = k
    · have hdv : d = v := hagree d (List.mem_cons_self _ _) hd
      subst hdv
      refine ih _ ?_ (fun x hx => hagree x (List.mem_cons_of_mem _ hx))
      rw [lookup_upsert]
      simp [hd]
    · refine ih _ ?_ (fun x hx => hagree x (List.mem_cons_of_mem _ hx))
      rw [lookup_upsert]
      have : ¬k = get_element_key d := fun h => hd h.symm
      simp [this, hl]

/-- `upsertAll` over element/key pairs: a member of the list whose every
same-key companion equals it ends up stored at its key. -/
theorem lookup_upsertAll_write (cs : List Element) (m : List (String × Element))
    (c : Element) (hc : c ∈ cs)
    (huniq : ∀ d ∈ cs, get_element_key d = get_element_key c → d = c) :
    List.lookup (get_element_key c)
      (upsertAll m (cs.map (fun x => (get_element_key x, x)))) = some c := by
  induction cs generalizing m with
  | nil => cases hc
  | cons d rest ih =>
    have hstep : upsertAll m ((d :: rest).map (fun x => (get_element_key x, x)))
        = upsertAll (upsert m (get_element_key d) d)
            (rest.map (fun x => (get_element_key x, x))) := by
      simp [upsertAll]
    rw [hstep]
    by_cases hd : get_element_key d = get_element_key c
    · have hdc : d = c := huniq d (List.mem_cons_self _ _) hd
      subst hdc
      refine lookup_upsertAll_preserved rest _ _ _ ?_
        (fun x hx hxk => huniq x (List.mem_cons_of_mem _ hx) hxk)
      rw [lookup_upsert]; simp
    · have hcr : c ∈ rest := by
        rcases List.mem_cons.mp hc with h | h
        · exact absurd (h ▸ rfl) hd
        · exact h
      exact ih _ hcr (fun x hx => huniq x (List.mem_cons_of_mem _ hx))

theorem goodpairs_upsertAll (cs : List Element) (m : List (String × Element))
    (h : ∀ p ∈ m, GoodPair p) :
    ∀ p ∈ upsertAll m (cs.map (fun c => (get_element_key c, c))), GoodPair p := by
  induction cs generalizing m with
  | nil => exact h
  | cons d rest ih =>
    have hstep : upsertAll m ((d :: rest).map (fun x => (get_element_key x, x)))
        = upsertAll (upsert m (get_element_key d) d)
            (rest.map (fun x => (get_element_key x, x))) := by
      simp [upsertAll]
    rw [hstep]
    exact ih _ (goodpairs_upsert m d h)

theorem nodup_keys_upsertAll (cs : List Element) (m : List (String × Element))
    (h : (m.map Prod.fst).Nodup) :
    ((upsertAll m (cs.map (fun c => (get_element_key c, c)))).map Prod.fst).Nodup := by
  induction cs generalizing m with
  | nil => simpa [upsertAll]
  | cons d rest ih =>
    have hstep : upsertAll m ((d :: rest).map (fun x => (get_element_key x, x)))
        = upsertAll (upsert m (get_element_key d) d)
            (rest.map (fun x => (get_element_key x, x))) := by
      simp [upsertAll]
    rw [hstep]
    exact ih _ (nodup_keys_upsert m _ d h)

theorem contentMap_goodpairs (e1 e2 : Element) :
    ∀ p ∈ contentMap e1 e2, GoodPair p := by
  unfold contentMap
  exact goodpairs_upsertAll _ _ (goodpairs_upsertAll _ [] (by intro p hp; cases hp))

theorem contentMap_nodup_keys (e1 e2 : Element) :
    ((contentMap e1 e2).map Prod.fst).Nodup := by
  unfold contentMap
  exact nodup_keys_upsertAll _ _ (nodup_keys_upsertAll _ [] (by simp))

/-- C10: in `_merge_content`, a child without a truthy SHORT-NAME descendant
is keyed by its object identity, so (given the uniqueness of Python object
ids, hypothesis `Hid`) no other child ever shares its key: every such child
of both elements survives into the merged children.  Children that do carry
a SHORT-NAME share a (tag, SHORT-NAME) key and collapse to element2's child:
it is stored, and element1's version disappears when they differ. -/
theorem C10_merge_content (freshEid : Nat) (ctx : ConflictContext)
    (Hid : ∀ c ∈ ctx.element1.children ++ ctx.element2.children,
           ∀ d ∈ ctx.element1.children ++ ctx.element2.children,
           hasShortName c = false → get_element_key c = get_element_key d → c = d) :
    ∃ merged : Element,
      (merge_content freshEid ctx).resolved_element = some merged ∧
      merged.children = (contentMap ctx.element1 ctx.element2).map Prod.snd ∧
      (∀ c ∈ ctx.element1.children, hasShortName c = false → c ∈ merged.children) ∧
      (∀ c ∈ ctx.element2.children, hasShortName c = false → c ∈ merged.children) ∧
      (∀ c1 ∈ ctx.element1.children, ∀ c2 ∈ ctx.element2.children,
        hasShortName c1 = true → hasShortName c2 = true →
        get_element_key c1 = get_element_key c2 →
        (∀ d ∈ ctx.element2.children, get_element_key d = get_element_key c1 → d = c2) →
        c2 ∈ merged.children ∧ (c1 ≠ c2 → c1 ∉ merged.children)) := by
  refine ⟨_, rfl, rfl, ?_, ?_, ?_⟩
  · intro c hc hnameless
    have h1 : List.lookup (get_element_key c)
        (upsertAll [] (ctx.element1.children.map (fun x => (get_element_key x, x))))
        = some c := by
      refine lookup_upsertAll_write _ _ _ hc ?_
      intro d hd hk
      exact (Hid c (List.mem_append_left _ hc) d (List.mem_append_left _ hd)
        hnameless hk.symm).symm
    have h2 : List.lookup (get_element_key c) (contentMap ctx.element1 ctx.element2)
        = some c := by
      unfold contentMap
      refine lookup_upsertAll_preserved _ _ _ _ h1 ?_
      intro d hd hk
      exact (Hid c (List.mem_append_left _ hc) d (List.mem_append_right _ hd)
        hnameless hk.symm).symm
    exact mem_values_of_lookup _ _ _ h2
  · intro c hc hnameless
    have h2 : List.lookup (get_element_key c) (contentMap ctx.element1 ctx.element2)
        = some c := by
      unfold contentMap
      refine lookup_upsertAll_write _ _ _ hc ?_
      intro d hd hk
      exact (Hid c (List.mem_append_right _ hc) d (List.mem_append_right _ hd)
        hnameless hk.symm).symm
    exact mem_values_of_lookup _ _ _ h2
  · intro c1 hc1 c2 hc2 hn1 hn2 hkeys huniq2
    have hl2 : List.lookup (get_element_key c2) (contentMap ctx.element1 ctx.element2)
        = some c2 := by
      unfold contentMap
      refine lookup_upsertAll_write _ _ _ hc2 ?_
      intro d hd hk
      exact huniq2 d hd (hk.trans hkeys.symm)
    have hl1 : List.lookup (get_element_key c1) (contentMap ctx.element1 ctx.element2)
        = some c2 := hkeys ▸ hl2
    refine ⟨mem_values_of_lookup _ _ _ hl2, ?_⟩
    intro hne hmem
    obtain ⟨p, hp, hp2⟩ := List.mem_map.mp hmem
    have hgood : p.1 = get_element_key p.2 := contentMap_goodpairs _ _ p hp
    have hpk : p = (get_element_key c1, c1) := by
      obtain ⟨pk, pv⟩ := p
      simp only at hp2
      subst hp2
      simpa using hgood
    rw [hpk] at hp
    have := lookup_of_mem_nodup _ _ _ (contentMap_nodup_keys ctx.element1 ctx.element2) hp
    rw [hl1] at this
    exact hne (Option.some.inj this).symm

/-- C10 witness: two parents each with one anonymous child and one I-SIGNAL
child named A; both anonymous children survive, the named children collapse
to element2's. -/
theorem C10_witness :
    (∀ c ∈ (el "P" 1 [el "ANON" 2 [], el "I-SIGNAL" 3 [txt "SHORT-NAME" 4 "A"]]).children
        ++ (el "P" 5 [el "ANON" 6 [], el "I-SIGNAL" 7 [txt "SHORT-NAME" 8 "A"]]).children,
     ∀ d ∈ (el "P" 1 [el "ANON" 2 [], el "I-SIGNAL" 3 [txt "SHORT-NAME" 4 "A"]]).children
        ++ (el "P" 5 [el "ANON" 6 [], el "I-SIGNAL" 7 [txt "SHORT-NAME" 8 "A"]]).children,
     hasShortName c = false → get_element_key c = get_element_key d → c = d) ∧
    ∃ merged : Element,
      (merge_content 99
        { element1 := el "P" 1 [el "ANON" 2 [], el "I-SIGNAL" 3 [txt "SHORT-NAME" 4 "A"]],
          element2 := el "P" 5 [el "ANON" 6 [], el "I-SIGNAL" 7 [txt "SHORT-NAME" 8 "A"]],
          source_file1 := "a.arxml", source_file2 := "b.arxml",
          element_path := "/AUTOSAR", conflict_type := .DIFFERENT_CONTENT }).resolved_element
        = some merged ∧
      merged.children
        = (contentMap (el "P" 1 [el "ANON" 2 [], el "I-SIGNAL" 3 [txt "SHORT-NAME" 4 "A"]])
            (el "P" 5 [el "ANON" 6 [], el "I-SIGNAL" 7 [txt "SHORT-NAME" 8 "A"]])).map Prod.snd ∧
      (∀ c ∈ (el "P" 1 [el "ANON" 2 [], el "I-SIGNAL" 3 [txt "SHORT-NAME" 4 "A"]]).children,
        hasShortName c = false → c ∈ merged.children) ∧
      (∀ c ∈ (el "P" 5 [el "ANON" 6 [], el "I-SIGNAL" 7 [txt "SHORT-NAME" 8 "A"]]).children,
        hasShortName c = false → c ∈ merged.children) ∧
      (∀ c1 ∈ (el "P" 1 [el "ANON" 2 [], el "I-SIGNAL" 3 [txt "SHORT-NAME" 4 "A"]]).children,
       ∀ c2 ∈ (el "P" 5 [el "ANON" 6 [], el "I-SIGNAL" 7 [txt "SHORT-NAME" 8 "A"]]).children,
        hasShortName c1 = true → hasShortName c2 = true →
        get_element_key c1 = get_element_key c2 →
        (∀ d ∈ (el "P" 5 [el "ANON" 6 [], el "I-SIGNAL" 7 [txt "SHORT-NAME" 8 "A"]]).children,
          get_element_key d = get_element_key c1 → d = c2) →
        c2 ∈ merged.children ∧ (c1 ≠ c2 → c1 ∉ merged.children)) :=
  ⟨by decide,
   C10_merge_content 99
     { element1 := el "P" 1 [el "ANON" 2 [], el "I-SIGNAL" 3 [txt "SHORT-NAME" 4 "A"]],
       element2 := el "P" 5 [el "ANON" 6 [], el "I-SIGNAL" 7 [txt "SHORT-NAME" 8 "A"]],
       source_file1 := "a.arxml", source_file2 := "b.arxml",
       element_path := "/AUTOSAR", conflict_type := .DIFFERENT_CONTENT }
     (by decide)⟩

/-! ## The simple merger (arxml_merger.py)

In-place mutation of the base tree is modelled by functional update keyed on
`eid` (the Python object identity): `remove`/`append` rebuild the children
list, and mutating an object found through the stale `base_map` snapshot is
a lookup of its `eid` in the current children.  `none` models an uncaught
exception (`list.remove` raising `ValueError` when the object to remove was
already detached) and, in `mergeStep`/`mtLoop`, the lookup of an `eid` that
is no longer present — a state unreachable while all object ids are
distinct, since the branch taken for a package name is determined by the
name alone. -/

def Element.withChildren : Element → List Element → Element
  | .mk t a x i _, cs => .mk t a x i cs

@[simp] theorem Element.withChildren_mk (t a x i cs cs') :
    (Element.mk t a x i cs).withChildren cs' = .mk t a x i cs' := rfl

/-- Python `list.remove` by object identity: drop the first child with the
given id. -/
def removeFirstEid : List Element → Nat → List Element
  | [], _ => []
  | c :: cs, i => if c.eid = i then cs else c :: removeFirstEid cs i

/-- `base_pkg.remove(obj)`: `none` models the `ValueError` when no child has
the object's identity. -/
def removeChildEid (e : Element) (i : Nat) : Option Element :=
  if e.children.any (fun c => c.eid == i) then
    some (e.withChildren (removeFirstEid e.children i))
  else
    none

/-- `parent.append(child)` (by reference: the child keeps its identity). -/
def appendChild (e c : Element) : Element :=
  e.withChildren (e.children ++ [c])

/-- Dereference an aliased child through its object identity. -/
def getChildEid (e : Element) (i : Nat) : Option Element :=
  e.children.find? (fun c => c.eid == i)

/-- Replace the child with the given identity (in-place mutation of an
aliased child seen from its parent). -/
def setFirstEid : List Element → Nat → Element → List Element
  | [], _, _ => []
  | c :: cs, i, c' => if c.eid = i then c' :: cs else c :: setFirstEid cs i c'

def setChildEid (e : Element) (i : Nat) (c' : Element) : Element :=
  e.withChildren (setFirstEid e.children i c')

/-- The dict comprehension
`{pkg.findtext(tag_name): pkg for pkg in base_pkg.findall(tag_pkg)}`,
kept as (name, identity) pairs in insertion order. -/
def buildBaseMap (children : List Element) (tagPkg tagName : String) :
    List (Option String × Nat) :=
  (children.filter (fun c => c.tag == tagPkg)).map (fun p => (p.findtext tagName, p.eid))

/-- Dict lookup: the last insertion for a key wins. -/
def baseMapLookup (pairs : List (Option String × Nat)) (name : Option String) : Option Nat :=
  (pairs.reverse.find? (fun p => p.1 == name)).map Prod.snd

/-- `rules and name in rules.get("replace_packages", [])` — `rules` is a
dict (truthy when present) holding the replace list. -/
def ruleMatch (rules : Option (List String)) (name : Option String) : Bool :=
  match rules, name with
  | some rs, some n => rs.contains n
  | _, _ => false

theorem Element.sizeOf_children_lt (e : Element) : sizeOf e.children < sizeOf e := by
  cases e with
  | mk t a x i cs =>
    simp only [Element.children, Element.mk.sizeOf_spec]
    omega

theorem sizeOf_lt_of_mem_children {c e : Element} (h : c ∈ e.children) :
    sizeOf c < sizeOf e :=
  Nat.lt_trans (List.sizeOf_lt_of_mem h) e.sizeOf_children_lt

theorem Element.one_le_sizeOf (e : Element) : 1 ≤ sizeOf e := by
  cases e with
  | mk t a x i cs =>
    simp only [Element.mk.sizeOf_spec]
    omega

theorem mem_children_of_findChild {e : Element} {tag : String} {c : Element}
    (h : e.findChild tag = some c) : c ∈ e.children := by
  unfold Element.findChild at h
  exact List.mem_of_find?_eq_some h

mutual
/-- `merge_packages(base_pkg, new_pkg, strategy, ns, rules)`: build the name
snapshot of the base AR-PACKAGE children, then walk the incoming AR-PACKAGE
children in source order.  The interactive channel is the oracle `ask`
(its prompt depends only on the package name). -/
def merge_packages (ask : Option String → Bool) (strategy ns : String)
    (rules : Option (List String)) (basePkg newPkg : Element) : Option Element :=
  mergeLoop ask strategy ns rules
    (buildBaseMap basePkg.children (qual ns "AR-PACKAGE") (qual ns "SHORT-NAME"))
    basePkg newPkg.children
termination_by sizeOf newPkg
decreasing_by
  exact Element.sizeOf_children_lt newPkg

/-- The `for pkg in new_pkg.findall(tag_pkg)` loop (non-AR-PACKAGE incoming
children are simply not visited). -/
def mergeLoop (ask : Option String → Bool) (strategy ns : String)
    (rules : Option (List String)) (baseMap : List (Option String × Nat))
    (basePkg : Element) : List Element → Option Element
  | [] => some basePkg
  | pkg :: rest =>
    if pkg.tag == qual ns "AR-PACKAGE" then
      let name := pkg.findtext (qual ns "SHORT-NAME")
      match baseMapLookup baseMap name with
      | some beid =>
        if (strategy == "interactive" && ask name)
            || strategy == "latest-wins"
            || (strategy == "rule-based" && ruleMatch rules name) then
          match removeChildEid basePkg beid with
          | some basePkg1 => mergeLoop ask strategy ns rules baseMap (appendChild basePkg1 pkg) rest
          | none => none
        else
          mergeStep ask strategy ns rules baseMap basePkg beid pkg rest
      | none => mergeLoop ask strategy ns rules baseMap (appendChild basePkg pkg) rest
    else
      mergeLoop ask strategy ns rules baseMap basePkg rest
termination_by pkgs => sizeOf pkgs
decreasing_by
  all_goals simp
  all_goals omega

/-- The conservative branch (also the interactive keep-old branch): recurse
into the first AR-PACKAGES child of both colliding packages, or graft the
incoming AR-PACKAGES subtree when the base package has none. -/
def mergeStep (ask : Option String → Bool) (strategy ns : String)
    (rules : Option (List String)) (baseMap : List (Option String × Nat))
    (basePkg : Element) (beid : Nat) (pkg : Element) (rest : List Element) :
    Option Element :=
  match getChildEid basePkg beid with
  | none => none
  | some base =>
    match hb : base.findChild (qual ns "AR-PACKAGES"),
          hn : pkg.findChild (qual ns "AR-PACKAGES") with
    | some bc, some nc =>
      match merge_packages ask strategy ns rules bc nc with
      | some bc' =>
        mergeLoop ask strategy ns rules baseMap
          (setChildEid basePkg beid (setChildEid base bc.eid bc')) rest
      | none => none
    | none, some nc =>
      mergeLoop ask strategy ns rules baseMap
        (setChildEid basePkg beid (appendChild base nc)) rest
    | _, none => mergeLoop ask strategy ns rules baseMap basePkg rest
termination_by sizeOf pkg + sizeOf rest
decreasing_by
  all_goals first
    | (have h2 := sizeOf_lt_of_mem_children (mem_children_of_findChild hn); omega)
    | (have h1 := Element.one_le_sizeOf pkg; omega)
end

/-- `base_root.tag.split("\x7d")[0].strip("\x7b")` when "\x7d" occurs in the
root tag, else the empty namespace. -/
def stripCurlyEnds (s : String) : String :=
  String.mk (((s.data.dropWhile (· = '\x7b')).reverse.dropWhile (· = '\x7b')).reverse)

def nsOf (t : String) : String :=
  if t.data.contains '\x7d' then stripCurlyEnds ((splitChar '\x7d' t).headD t) else ""

/-- The `for t in trees[1:]` fold of `merge_trees`, carrying the current
base root and the identity of the AR-PACKAGES container being merged into. -/
def mtLoop (ask : Option String → Bool) (strategy : String)
    (rules : Option (List String)) (ns : String) (baseRoot : Element)
    (basePkgsEid : Option Nat) : List Element → Option Element
  | [] => some baseRoot
  | t :: rest =>
    match t.findChild (qual ns "AR-PACKAGES") with
    | none => mtLoop ask strategy rules ns baseRoot basePkgsEid rest
    | some pkgs =>
      match basePkgsEid with
      | none => mtLoop ask strategy rules ns (appendChild baseRoot pkgs) (some pkgs.eid) rest
      | some be =>
        match getChildEid baseRoot be with
        | none => none
        | some basePkgs =>
          match merge_packages ask strategy ns rules basePkgs pkgs with
          | none => none
          | some basePkgs1 =>
            mtLoop ask strategy rules ns (setChildEid baseRoot be basePkgs1) basePkgsEid rest

/-- `merge_trees(trees, strategy, rules)`: the first tree is the base
(`none` models the IndexError on an empty input list); every later tree's
AR-PACKAGES container is merged into — or grafted onto — the base root,
which is returned. -/
def merge_trees (ask : Option String → Bool) (trees : List Element)
    (strategy : String) (rules : Option (List String)) : Option Element :=
  match trees with
  | [] => none
  | baseRoot :: rest =>
    let ns := nsOf baseRoot.tag
    mtLoop ask strategy rules ns baseRoot
      ((baseRoot.findChild (qual ns "AR-PACKAGES")).map Element.eid) rest

/-! ## C6: merge_files failure semantics (arxml_merger_engine.py) -/

structure EngineMergeResult where
  success : Bool
  merged_tree : Option Element
  errors : List String
  warnings : List String
deriving DecidableEq, Repr

/-- `ARXMLMergerEngine._merge_trees`: the first tree is the base; the
per-tree `_merge_single_tree` body is a stub (`pass`), so the base tree is
returned as the merged tree. -/
def engine_merge_trees (trees : List Element) : Option Element :=
  match trees with
  | [] => none
  | t :: _ => some t

/-- `ARXMLMergerEngine.merge_files` on a fresh engine: each input is a
(path, parse outcome) pair; parse failures are recorded as errors and
dropped; with no parsed tree the run fails with no output, otherwise it
succeeds with the merged tree. -/
def merge_files (inputs : List (String × Option Element)) : EngineMergeResult :=
  let errors := (inputs.filter (fun p => p.2.isNone)).map
    (fun p => "Konnte Datei nicht parsen: " ++ p.1)
  let trees := inputs.filterMap Prod.snd
  if trees.isEmpty then
    { success := false, merged_tree := none, errors := errors, warnings := [] }
  else
    { success := true, merged_tree := engine_merge_trees trees, errors := errors,
      warnings := [] }

/-- C6: if no input parses the run fails with no merged document; if at
least one parses, the run succeeds, produces a merged document, and records
one error per unparseable input. -/
theorem C6_failure_semantics (inputs : List (String × Option Element)) :
    ((∀ p ∈ inputs, p.2 = none) →
      (merge_files inputs).success = false ∧ (merge_files inputs).merged_tree = none) ∧
    ((∃ p ∈ inputs, p.2.isSome) →
      (merge_files inputs).success = true ∧
      (merge_files inputs).merged_tree.isSome = true ∧
      (merge_files inputs).errors
        = (inputs.filter (fun p => p.2.isNone)).map
            (fun p => "Konnte Datei nicht parsen: " ++ p.1)) := by
  constructor
  · intro hall
    have htrees : inputs.filterMap Prod.snd = [] := by
      rw [List.filterMap_eq_nil]
      intro p hp
      exact hall p hp
    simp [merge_files, htrees]
  · rintro ⟨p, hp, hsome⟩
    have htrees : ¬(inputs.filterMap Prod.snd).isEmpty = true := by
      intro he
      rw [List.isEmpty_iff, List.filterMap_eq_nil] at he
      rw [he p hp] at hsome
      cases hsome
    rcases hne : inputs.filterMap Prod.snd with _ | ⟨t, ts⟩
    · rw [hne] at htrees; simp at htrees
    · simp [merge_files, hne, engine_merge_trees]

/-- C6 witness: an all-failing input list fails with no output; a mixed list
succeeds with one recorded error. -/
theorem C6_witness :
    ((merge_files [("a.arxml", none)]).success = false ∧
      (merge_files [("a.arxml", none)]).merged_tree = none) ∧
    ((merge_files [("a.arxml", none), ("b.arxml", some (el "AUTOSAR" 0 []))]).success = true ∧
      (merge_files [("a.arxml", none), ("b.arxml", some (el "AUTOSAR" 0 []))]).merged_tree.isSome
        = true ∧
      (merge_files [("a.arxml", none), ("b.arxml", some (el "AUTOSAR" 0 []))]).errors
        = ([("a.arxml", (none : Option Element)),
            ("b.arxml", some (el "AUTOSAR" 0 []))].filter (fun p => p.2.isNone)).map
            (fun p => "Konnte Datei nicht parsen: " ++ p.1)) :=
  ⟨(C6_failure_semantics [("a.arxml", none)]).1 (by decide),
   (C6_failure_semantics [("a.arxml", none), ("b.arxml", some (el "AUTOSAR" 0 []))]).2
     ⟨("b.arxml", some (el "AUTOSAR" 0 [])), by decide, by decide⟩⟩

/-! ## C8: order-independence of conflict classification

The repository declares the conflict categories (`ConflictType`) and carries
a classified category inside every `ConflictContext`, but no function in the
source computes the category from the two colliding nodes. -/

/-- Boolean set-equality of two lists (symmetric by construction). -/
def listSetEq [BEq α] (l1 l2 : List α) : Bool :=
  l1.all (fun x => l2.contains x) && l2.all (fun x => l1.contains x)

/-- Modelled from the spec: the Conflict Classifier of section 4.3, which is
missing from the source.  Identical tag with identical attributes and
identical child-name-set (and text) is no conflict; identical tag with
differing attributes only is DIFFERENT_ATTRIBUTES; identical tag with
differing children or text is DIFFERENT_CONTENT; differing tags (including
package container vs leaf element) are INCOMPATIBLE_TYPES. -/
def classify_conflict (a b : Element) : Option ConflictType :=
  if a.tag = b.tag then
    if listSetEq (a.children.map (fun c => c.findtext "SHORT-NAME"))
          (b.children.map (fun c => c.findtext "SHORT-NAME"))
        && a.text == b.text then
      if listSetEq a.attrib b.attrib then none
      else some .DIFFERENT_ATTRIBUTES
    else
      some .DIFFERENT_CONTENT
  else
    some .INCOMPATIBLE_TYPES

theorem listSetEq_comm [BEq α] (l1 l2 : List α) : listSetEq l1 l2 = listSetEq l2 l1 := by
  simp [listSetEq, Bool.and_comm]

/-- C8: classification is order-independent — swapping the two nodes yields
the same conflict category. -/
theorem C8_classify_symmetric (a b : Element) :
    classify_conflict a b = classify_conflict b a := by
  unfold classify_conflict
  by_cases htag : a.tag = b.tag
  · have htag' : b.tag = a.tag := htag.symm
    rw [if_pos htag, if_pos htag']
    rw [listSetEq_comm (a.children.map (fun c => c.findtext "SHORT-NAME"))]
    rw [listSetEq_comm a.attrib b.attrib]
    have htext : (a.text == b.text) = (b.text == a.text) := by
      by_cases h : a.text = b.text
      · rw [h]
      · have h' : ¬b.text = a.text := fun he => h he.symm
        rw [beq_eq_false_iff_ne.mpr h, beq_eq_false_iff_ne.mpr h']
    rw [htext]
  · have htag' : ¬b.tag = a.tag := fun he => htag he.symm
    rw [if_neg htag, if_neg htag']

/-! ## C3: position of latest-wins replacements in merge_packages -/

def isPkgTag (ns : String) (c : Element) : Bool :=
  c.tag == qual ns "AR-PACKAGE"

def shortNameOf (ns : String) (c : Element) : Option String :=
  c.findtext (qual ns "SHORT-NAME")

/-- Names of the AR-PACKAGE children of a node, in sibling order. -/
def pkgNames (ns : String) (l : List Element) : List (Option String) :=
  (l.filter (isPkgTag ns)).map (shortNameOf ns)

/-- The base children that survive once the packages named in `done` have
been replaced: non-package children always survive. -/
def keepFilter (ns : String) (done : List (Option String)) (B : List Element) :
    List Element :=
  B.filter (fun c => !(isPkgTag ns c && decide (shortNameOf ns c ∈ done)))

theorem keepFilter_nil (ns : String) (B : List Element) : keepFilter ns [] B = B := by
  simp [keepFilter]

theorem baseMapLookup_some_spec (B : List Element) (tP tN : String) (n : Option String)
    (i : Nat) (h : baseMapLookup (buildBaseMap B tP tN) n = some i) :
    ∃ b ∈ B, b.tag = tP ∧ b.findtext tN = n ∧ b.eid = i := by
  unfold baseMapLookup at h
  cases hf : (buildBaseMap B tP tN).reverse.find? (fun p => p.1 == n) with
  | none => rw [hf] at h; cases h
  | some p =>
    rw [hf] at h
    have hmem : p ∈ (buildBaseMap B tP tN).reverse := List.mem_of_find?_eq_some hf
    rw [List.mem_reverse] at hmem
    have hpred := List.find?_some hf
    have hp1 : p.1 = n := by simpa using hpred
    unfold buildBaseMap at hmem
    obtain ⟨b, hb, hbp⟩ := List.mem_map.mp hmem
    have hbB : b ∈ B := List.mem_of_mem_filter hb
    have hbtag : b.tag = tP := by
      have := List.of_mem_filter hb
      simpa using this
    refine ⟨b, hbB, hbtag, ?_, ?_⟩
    · rw [← hp1, ← hbp]
    · have : p.2 = i := by simpa using h
      rw [← this, ← hbp]

theorem baseMapLookup_none_spec (B : List Element) (tP tN : String) (n : Option String)
    (h : baseMapLookup (buildBaseMap B tP tN) n = none) :
    ∀ b ∈ B, b.tag = tP → b.findtext tN ≠ n := by
  intro b hb hbtag hname
  unfold baseMapLookup at h
  cases hf : (buildBaseMap B tP tN).reverse.find? (fun p => p.1 == n) with
  | some p => rw [hf] at h; cases h
  | none =>
    have hmem : (b.findtext tN, b.eid) ∈ (buildBaseMap B tP tN).reverse := by
      rw [List.mem_reverse]
      unfold buildBaseMap
      refine List.mem_map.mpr ⟨b, ?_, rfl⟩
      exact List.mem_filter.mpr ⟨hb, by simp [hbtag]⟩
    have := List.find?_eq_none.mp hf _ hmem
    simp [hname] at this

theorem removeFirstEid_eq_erase (l : List Element) (b : Element) (hb : b ∈ l)
    (huniq : ∀ c ∈ l, c.eid = b.eid → c = b) :
    removeFirstEid l b.eid = l.erase b := by
  induction l with
  | nil => cases hb
  | cons c t ih =>
    by_cases hc : c.eid = b.eid
    · have hcb : c = b := huniq c (List.mem_cons_self _ _) hc
      subst hcb
      simp [removeFirstEid]
    · have hcb : c ≠ b := fun he => hc (he ▸ rfl)
      have hbt : b ∈ t := by
        rcases List.mem_cons.mp hb with h | h
        · exact absurd h.symm hcb
        · exact h
      rw [List.erase_cons_tail (by simpa using hcb)]
      simp only [removeFirstEid, if_neg hc]
      rw [ih hbt (fun x hx => huniq x (List.mem_cons_of_mem _ hx))]

theorem keepFilter_no_name (ns : String) (done : List (Option String))
    (n : Option String) (B : List Element)
    (hno : ∀ c ∈ B, isPkgTag ns c = true → shortNameOf ns c ≠ n) :
    keepFilter ns (done ++ [n]) B = keepFilter ns done B := by
  unfold keepFilter
  refine List.filter_congr ?_
  intro c hc
  by_cases hp : isPkgTag ns c = true
  · have hnn : shortNameOf ns c ≠ n := hno c hc hp
    simp [hp, hnn]
  · simp only [Bool.not_eq_true] at hp
    simp [hp]

theorem keepFilter_snoc_erase (ns : String) (done : List (Option String))
    (n : Option String) (B : List Element) (b : Element)
    (hb : b ∈ B) (hbtag : isPkgTag ns b = true) (hbname : shortNameOf ns b = n)
    (hnd : n ∉ done)
    (huniq : ∀ c ∈ B, isPkgTag ns c = true → shortNameOf ns c = n → c = b)
    (hBnodup : B.Nodup) :
    keepFilter ns (done ++ [n]) B = (keepFilter ns done B).erase b := by
  induction B with
  | nil => cases hb
  | cons c t ih =>
    rcases List.mem_cons.mp hb with hcb | hbt
    · subst hcb
      have hkeep : (!(isPkgTag ns b && decide (shortNameOf ns b ∈ done))) = true := by
        simp [hbname, hnd]
      have hdrop : (!(isPkgTag ns b && decide (shortNameOf ns b ∈ done ++ [n]))) = false := by
        simp [hbtag, hbname]
      have hnot : b ∉ t := (List.nodup_cons.mp hBnodup).1
      have hnoT : ∀ x ∈ t, isPkgTag ns x = true → shortNameOf ns x ≠ n := by
        intro x hx hxp hxn
        exact hnot ((huniq x (List.mem_cons_of_mem _ hx) hxp hxn) ▸ hx)
      unfold keepFilter
      rw [List.filter_cons, List.filter_cons, hkeep, hdrop]
      simp only [if_true, if_false]
      rw [List.erase_cons_head]
      exact keepFilter_no_name ns done n t hnoT
    · have hcb : c ≠ b := by
        intro he
        exact (List.nodup_cons.mp hBnodup).1 (he ▸ hbt)
      have hcond : (!(isPkgTag ns c && decide (shortNameOf ns c ∈ done ++ [n])))
          = (!(isPkgTag ns c && decide (shortNameOf ns c ∈ done))) := by
        by_cases hp : isPkgTag ns c = true
        · have hnn : shortNameOf ns c ≠ n := by
            intro he
            exact hcb (huniq c (List.mem_cons_self _ _) hp he)
          simp [hp, hnn]
        · simp only [Bool.not_eq_true] at hp
          simp [hp]
      have ihx := ih hbt (fun x hx => huniq x (List.mem_cons_of_mem _ hx))
        (List.nodup_cons.mp hBnodup).2
      unfold keepFilter at ihx ⊢
      rw [List.filter_cons, List.filter_cons, hcond]
      by_cases hkc : (!(isPkgTag ns c && decide (shortNameOf ns c ∈ done))) = true
      · rw [hkc]
        simp only [if_true]
        rw [List.erase_cons_tail (by simpa using hcb), ihx]
      · simp only [Bool.not_eq_true] at hkc
        rw [hkc]
        simp only [Bool.false_eq_true, if_false]
        exact ihx

theorem isPkgTag_iff (ns : String) (c : Element) :
    isPkgTag ns c = true ↔ c.tag = qual ns "AR-PACKAGE" := by
  simp [isPkgTag]

theorem pkgNames_cons_pos (ns : String) (pkg : Element) (rest : List Element)
    (h : isPkgTag ns pkg = true) :
    pkgNames ns (pkg :: rest) = shortNameOf ns pkg :: pkgNames ns rest := by
  simp [pkgNames, List.filter_cons, h]

theorem pkgNames_cons_neg (ns : String) (pkg : Element) (rest : List Element)
    (h : ¬isPkgTag ns pkg = true) :
    pkgNames ns (pkg :: rest) = pkgNames ns rest := by
  simp only [Bool.not_eq_true] at h
  simp [pkgNames, List.filter_cons, h]

theorem eid_unique_in (L : List Element) (hN : (L.map Element.eid).Nodup)
    {x y : Element} (hx : x ∈ L) (hy : y ∈ L) (he : x.eid = y.eid) : x = y :=
  List.inj_on_of_nodup_map hN hx hy he

theorem withChildren_children (e : Element) (cs : List Element) :
    (e.withChildren cs).children = cs := by
  cases e; rfl

theorem appendChild_withChildren (e : Element) (cs : List Element) (c : Element) :
    appendChild (e.withChildren cs) c = e.withChildren (cs ++ [c]) := by
  cases e; rfl

theorem withChildren_self (e : Element) : e.withChildren e.children = e := by
  cases e; rfl

theorem withChildren_withChildren (e : Element) (cs cs' : List Element) :
    (e.withChildren cs).withChildren cs' = e.withChildren cs' := by
  cases e; rfl

/-- The latest-wins loop invariant: with `done` names already replaced and
`A` incoming packages already appended, the loop replaces every colliding
base package (removing it, appending the incoming one at the end) and
appends every new package, in incoming order. -/
theorem lw_loop (ask : Option String → Bool) (rules : Option (List String)) (ns : String)
    (B : List Element) (base0 : Element)
    (hnames : (pkgNames ns B).Nodup) :
    ∀ (R : List Element) (done : List (Option String)) (A : List Element),
    (((B ++ A ++ R).map Element.eid).Nodup) →
    ((pkgNames ns R).Nodup) →
    (∀ r ∈ R, isPkgTag ns r = true → shortNameOf ns r ∉ done) →
    mergeLoop ask "latest-wins" ns rules
      (buildBaseMap B (qual ns "AR-PACKAGE") (qual ns "SHORT-NAME"))
      (base0.withChildren (keepFilter ns done B ++ A)) R
    = some (base0.withChildren
        (keepFilter ns (done ++ pkgNames ns R) B ++ (A ++ R.filter (isPkgTag ns)))) := by
  intro R
  induction R with
  | nil =>
    intro done A _ _ _
    simp [mergeLoop, pkgNames]
  | cons pkg rest ih =>
    intro done A heids hnmR hdone
    have hnamesMap : ((B.filter (isPkgTag ns)).map (shortNameOf ns)).Nodup := hnames
    have hBnodupEid : (B.map Element.eid).Nodup := by
      have hsub : B.Sublist (B ++ A ++ (pkg :: rest)) := by
        rw [List.append_assoc]
        exact List.sublist_append_left B _
      exact List.Nodup.sublist (hsub.map Element.eid) heids
    have hBnodup : B.Nodup := hBnodupEid.of_map
    by_cases htag : isPkgTag ns pkg = true
    · have htag' : (pkg.tag == qual ns "AR-PACKAGE") = true := htag
      rw [pkgNames_cons_pos ns pkg rest htag] at hnmR ⊢
      have hnIn : shortNameOf ns pkg ∉ pkgNames ns rest := (List.nodup_cons.mp hnmR).1
      have hnmRest : (pkgNames ns rest).Nodup := (List.nodup_cons.mp hnmR).2
      have hdonePkg : shortNameOf ns pkg ∉ done :=
        hdone pkg (List.mem_cons_self _ _) htag
      have hdone' : ∀ r ∈ rest, isPkgTag ns r = true →
          shortNameOf ns r ∉ done ++ [shortNameOf ns pkg] := by
        intro r hr hrp hmem
        rcases List.mem_append.mp hmem with h | h
        · exact hdone r (List.mem_cons_of_mem _ hr) hrp h
        · have : shortNameOf ns r = shortNameOf ns pkg := by simpa using h
          exact hnIn (this ▸ List.mem_map_of_mem (shortNameOf ns)
            (List.mem_filter.mpr ⟨hr, hrp⟩))
      have heids' : ((B ++ (A ++ [pkg]) ++ rest).map Element.eid).Nodup := by
        have heq : B ++ (A ++ [pkg]) ++ rest = B ++ A ++ (pkg :: rest) := by
          simp [List.append_assoc]
        rw [heq]; exact heids
      cases hlook : baseMapLookup
          (buildBaseMap B (qual ns "AR-PACKAGE") (qual ns "SHORT-NAME"))
          (pkg.findtext (qual ns "SHORT-NAME")) with
      | some beid =>
        obtain ⟨b, hbB, hbtag, hbname, hbeid⟩ :=
          baseMapLookup_some_spec B _ _ _ _ hlook
        have hbPkg : isPkgTag ns b = true := (isPkgTag_iff ns b).mpr hbtag
        have hbShort : shortNameOf ns b = shortNameOf ns pkg := hbname
        have hbKeep : b ∈ keepFilter ns done B := by
          refine List.mem_filter.mpr ⟨hbB, ?_⟩
          simp [hbPkg, hbShort, hdonePkg]
        have hbuniq : ∀ c ∈ B, isPkgTag ns c = true →
            shortNameOf ns c = shortNameOf ns pkg → c = b := by
          intro c hc hcp hcn
          exact List.inj_on_of_nodup_map hnamesMap
            (List.mem_filter.mpr ⟨hc, hcp⟩) (List.mem_filter.mpr ⟨hbB, hbPkg⟩)
            (by rw [hcn, hbShort])
        have hremove : removeChildEid (base0.withChildren (keepFilter ns done B ++ A)) beid
            = some (base0.withChildren
                ((keepFilter ns (done ++ [shortNameOf ns pkg]) B) ++ A)) := by
          unfold removeChildEid
          rw [withChildren_children]
          have hany : ((keepFilter ns done B ++ A).any (fun c => c.eid == beid)) = true :=
            List.any_eq_true.mpr ⟨b, List.mem_append_left _ hbKeep, by simp [hbeid]⟩
          rw [if_pos hany]
          have hrem : removeFirstEid (keepFilter ns done B ++ A) beid
              = (keepFilter ns done B ++ A).erase b := by
            rw [← hbeid]
            refine removeFirstEid_eq_erase _ b (List.mem_append_left _ hbKeep) ?_
            intro c hc hce
            have hcL : c ∈ B ++ A ++ (pkg :: rest) := by
              rw [List.append_assoc]
              rcases List.mem_append.mp hc with h | h
              · exact List.mem_append_left _ (List.mem_of_mem_filter h)
              · exact List.mem_append_right _ (List.mem_append_left _ h)
            have hbL : b ∈ B ++ A ++ (pkg :: rest) := by
              rw [List.append_assoc]
              exact List.mem_append_left _ hbB
            exact eid_unique_in _ heids hcL hbL hce
          rw [hrem, List.erase_append_left _ hbKeep,
            keepFilter_snoc_erase ns done (shortNameOf ns pkg) B b hbB hbPkg hbShort
              hdonePkg hbuniq hBnodup, withChildren_withChildren]
        unfold mergeLoop
        rw [if_pos htag']
        simp only [hlook]
        have hcond : ((("latest-wins" : String) == "interactive")
              && ask (pkg.findtext (qual ns "SHORT-NAME"))
            || (("latest-wins" : String) == "latest-wins")
            || (("latest-wins" : String) == "rule-based")
              && ruleMatch rules (pkg.findtext (qual ns "SHORT-NAME"))) = true := by
          simp
        rw [if_pos hcond, hremove]
        simp only
        rw [appendChild_withChildren, List.append_assoc]
        rw [ih (done ++ [shortNameOf ns pkg]) (A ++ [pkg]) heids' hnmRest hdone']
        have hfeq : List.filter (isPkgTag ns) (pkg :: rest)
            = pkg :: List.filter (isPkgTag ns) rest := by
          rw [List.filter_cons, if_pos htag]
        rw [hfeq]
        simp [List.append_assoc]
      | none =>
        have hkeepEq : keepFilter ns (done ++ [shortNameOf ns pkg]) B
            = keepFilter ns done B := by
          refine keepFilter_no_name ns done _ B ?_
          intro c hc hcp
          exact baseMapLookup_none_spec B _ _ _ hlook c hc ((isPkgTag_iff ns c).mp hcp)
        unfold mergeLoop
        rw [if_pos htag']
        simp only [hlook]
        rw [appendChild_withChildren, List.append_assoc]
        rw [← hkeepEq]
        rw [ih (done ++ [shortNameOf ns pkg]) (A ++ [pkg]) heids' hnmRest hdone']
        have hfeq : List.filter (isPkgTag ns) (pkg :: rest)
            = pkg :: List.filter (isPkgTag ns) rest := by
          rw [List.filter_cons, if_pos htag]
        rw [hfeq]
        simp [List.append_assoc]
    · have htagf : isPkgTag ns pkg = false := by simpa using htag
      have htag' : (pkg.tag == qual ns "AR-PACKAGE") = false := htagf
      rw [pkgNames_cons_neg ns pkg rest htag] at hnmR ⊢
      have heids' : ((B ++ A ++ rest).map Element.eid).Nodup := by
        refine List.Nodup.sublist ?_ heids
        refine List.Sublist.map Element.eid ?_
        exact List.Sublist.append_left (List.sublist_cons_self pkg rest) (B ++ A)
      unfold mergeLoop
      rw [if_neg (by simp [htag'])]
      rw [ih done A heids' hnmR
        (fun r hr hrp => hdone r (List.mem_cons_of_mem _ hr) hrp)]
      rw [List.filter_cons, if_neg (by simp [htag])]

/-- C3 (amended): under latest-wins, a collision does not put the incoming
package at the base child's original sibling position: the base child is
removed and the incoming package is appended at the end.  The output order
is: surviving base children in base order, then every incoming package
(replacements and new packages alike) in incoming order. -/
theorem C3_amended (ask : Option String → Bool) (rules : Option (List String))
    (ns : String) (basePkg newPkg : Element)
    (h1 : (pkgNames ns basePkg.children).Nodup)
    (h2 : (pkgNames ns newPkg.children).Nodup)
    (h3 : (((basePkg.children ++ newPkg.children)).map Element.eid).Nodup) :
    merge_packages ask "latest-wins" ns rules basePkg newPkg
      = some (basePkg.withChildren
          (keepFilter ns (pkgNames ns newPkg.children) basePkg.children
           ++ newPkg.children.filter (isPkgTag ns))) := by
  unfold merge_packages
  have h := lw_loop ask rules ns basePkg.children basePkg h1 newPkg.children [] []
    (by simpa using h3) h2 (by intro r hr hrp; simp)
  rw [keepFilter_nil, List.append_nil, withChildren_self] at h
  simpa using h

/-- Base container: packages A then B. -/
def c3Base : Element :=
  el "AR-PACKAGES" 0 [
    el "AR-PACKAGE" 1 [txt "SHORT-NAME" 2 "A"],
    el "AR-PACKAGE" 3 [txt "SHORT-NAME" 4 "B"]]

/-- Incoming container: a replacement for package A (marked so the two As
differ). -/
def c3New : Element :=
  el "AR-PACKAGES" 10 [
    el "AR-PACKAGE" 11 [txt "SHORT-NAME" 12 "A", el "MARKER" 13 []]]

/-- C3 counterexample: replacing package A of [A, B] under latest-wins puts
the incoming A *after* B — package order [B, A], not the base-order [A, B]
the claim requires for a replacement at the original position. -/
theorem C3_counterexample :
    merge_packages (fun _ => true) "latest-wins" "" none c3Base c3New
      = some (el "AR-PACKAGES" 0 [
          el "AR-PACKAGE" 3 [txt "SHORT-NAME" 4 "B"],
          el "AR-PACKAGE" 11 [txt "SHORT-NAME" 12 "A", el "MARKER" 13 []]]) ∧
    pkgNames "" c3Base.children = [some "A", some "B"] ∧
    pkgNames "" [el "AR-PACKAGE" 3 [txt "SHORT-NAME" 4 "B"],
        el "AR-PACKAGE" 11 [txt "SHORT-NAME" 12 "A", el "MARKER" 13 []]]
      = [some "B", some "A"] := by
  refine ⟨?_, by decide, by decide⟩
  have h := lw_loop (fun _ => true) none "" c3Base.children c3Base (by decide)
    c3New.children [] [] (by decide) (by decide) (by intro r hr hrp; simp)
  rw [keepFilter_nil, List.append_nil, withChildren_self] at h
  unfold merge_packages
  rw [h]
  decide

/-- C3 witness: the amended theorem applied to the concrete [A, B] base and
the incoming replacement for A. -/
theorem C3_witness :
    (pkgNames "" c3Base.children).Nodup ∧
    (pkgNames "" c3New.children).Nodup ∧
    (((c3Base.children ++ c3New.children)).map Element.eid).Nodup ∧
    merge_packages (fun _ => true) "latest-wins" "" none c3Base c3New
      = some (c3Base.withChildren
          (keepFilter "" (pkgNames "" c3New.children) c3Base.children
           ++ c3New.children.filter (isPkgTag ""))) :=
  ⟨by decide, by decide, by decide,
   C3_amended (fun _ => true) none "" c3Base c3New (by decide) (by decide) (by decide)⟩

/-! ## C4: conservative self-merge is the identity -/

mutual
/-- Structural equality: everything except the object identity `eid`
("structurally identical copy"). -/
def structEq : Element → Element → Bool
  | .mk t1 a1 x1 _ c1, .mk t2 a2 x2 _ c2 =>
    t1 == t2 && a1 == a2 && x1 == x2 && structEqList c1 c2

def structEqList : List Element → List Element → Bool
  | [], [] => true
  | a :: as, b :: bs => structEq a b && structEqList as bs
  | _, _ => false
end

mutual
theorem structEq_refl : ∀ e : Element, structEq e e = true
  | .mk t a x i cs => by
    simp only [structEq, Bool.and_eq_true, beq_iff_eq]
    exact ⟨⟨⟨trivial, trivial⟩, trivial⟩, structEqList_refl cs⟩

theorem structEqList_refl : ∀ l : List Element, structEqList l l = true
  | [] => rfl
  | c :: cs => by
    simp only [structEqList, Bool.and_eq_true]
    exact ⟨structEq_refl c, structEqList_refl cs⟩
end

theorem structEq_parts (a b : Element) (h : structEq a b = true) :
    a.tag = b.tag ∧ a.attrib = b.attrib ∧ a.text = b.text ∧
    structEqList a.children b.children = true := by
  cases a with
  | mk t1 a1 x1 i1 c1 =>
    cases b with
    | mk t2 a2 x2 i2 c2 =>
      simp only [structEq, Bool.and_eq_true, beq_iff_eq] at h
      obtain ⟨⟨⟨h1, h2⟩, h3⟩, h4⟩ := h
      exact ⟨h1, h2, h3, h4⟩

theorem structEqList_partner (bs : List Element) : ∀ ns' : List Element,
    structEqList bs ns' = true → ∀ r ∈ ns', ∃ c ∈ bs, structEq c r = true := by
  induction bs with
  | nil =>
    intro ns' h r hr
    cases ns' with
    | nil => cases hr
    | cons x xs => simp [structEqList] at h
  | cons c cs ih =>
    intro ns' h r hr
    cases ns' with
    | nil => cases hr
    | cons x xs =>
      simp only [structEqList, Bool.and_eq_true] at h
      rcases List.mem_cons.mp hr with rfl | hr
      · exact ⟨c, List.mem_cons_self _ _, h.1⟩
      · obtain ⟨d, hd, hds⟩ := ih xs h.2 r hr
        exact ⟨d, List.mem_cons_of_mem _ hd, hds⟩

theorem findChild_corr_list (t : String) : ∀ (c1 c2 : List Element),
    structEqList c1 c2 = true →
    (c1.find? (fun c => c.tag == t) = none ∧ c2.find? (fun c => c.tag == t) = none) ∨
    (∃ x y, c1.find? (fun c => c.tag == t) = some x ∧
      c2.find? (fun c => c.tag == t) = some y ∧ structEq x y = true) := by
  intro c1
  induction c1 with
  | nil =>
    intro c2 h
    cases c2 with
    | nil => left; simp
    | cons y ys => simp [structEqList] at h
  | cons x xs ih =>
    intro c2 h
    cases c2 with
    | nil => simp [structEqList] at h
    | cons y ys =>
      simp only [structEqList, Bool.and_eq_true] at h
      have htag : x.tag = y.tag := (structEq_parts x y h.1).1
      by_cases hx : (x.tag == t) = true
      · right
        refine ⟨x, y, ?_, ?_, h.1⟩
        · simp [List.find?_cons, hx]
        · have hy : (y.tag == t) = true := by rw [← htag]; exact hx
          simp [List.find?_cons, hy]
      · have hy : ¬(y.tag == t) = true := by rw [← htag]; exact hx
        rw [List.find?_cons]
        rw [List.find?_cons]
        simp only [Bool.not_eq_true] at hx hy
        rw [hx, hy]
        exact ih ys h.2

theorem findChild_corr (b n : Element) (t : String) (h : structEq b n = true) :
    (b.findChild t = none ∧ n.findChild t = none) ∨
    (∃ x y, b.findChild t = some x ∧ n.findChild t = some y ∧ structEq x y = true) :=
  findChild_corr_list t b.children n.children (structEq_parts b n h).2.2.2

theorem findtext_corr (b n : Element) (t : String) (h : structEq b n = true) :
    b.findtext t = n.findtext t := by
  unfold Element.findtext Element.findChild
  rcases findChild_corr b n t h with ⟨h1, h2⟩ | ⟨x, y, h1, h2, hxy⟩
  · unfold Element.findChild at h1 h2
    rw [h1, h2]
  · unfold Element.findChild at h1 h2
    rw [h1, h2]
    simp [(structEq_parts x y hxy).2.2.1]

mutual
/-- Well-formedness used by the idempotence property: AUTOSAR name
uniqueness among sibling packages at every level, plus the distinctness of
the Python object identities of every sibling list. -/
def wfTree (ns : String) : Element → Bool
  | .mk _ _ _ _ cs =>
    decide ((pkgNames ns cs).Nodup) && decide ((cs.map Element.eid).Nodup)
      && wfTreeList ns cs

def wfTreeList (ns : String) : List Element → Bool
  | [] => true
  | c :: cs => wfTree ns c && wfTreeList ns cs
end

theorem wfTree_parts (ns : String) (e : Element) (h : wfTree ns e = true) :
    (pkgNames ns e.children).Nodup ∧ (e.children.map Element.eid).Nodup ∧
    wfTreeList ns e.children = true := by
  cases e with
  | mk t a x i cs =>
    simp only [wfTree, Bool.and_eq_true, decide_eq_true_eq] at h
    exact ⟨h.1.1, h.1.2, h.2⟩

theorem wfTreeList_mem (ns : String) : ∀ (l : List Element), wfTreeList ns l = true →
    ∀ c ∈ l, wfTree ns c = true := by
  intro l
  induction l with
  | nil => intro _ c hc; cases hc
  | cons x xs ih =>
    intro h c hc
    simp only [wfTreeList, Bool.and_eq_true] at h
    rcases List.mem_cons.mp hc with rfl | hc
    · exact h.1
    · exact ih h.2 c hc

theorem wfTree_child (ns : String) (e : Element) (c : Element)
    (h : wfTree ns e = true) (hc : c ∈ e.children) : wfTree ns c = true :=
  wfTreeList_mem ns e.children (wfTree_parts ns e h).2.2 c hc

theorem find?_eid_of_mem_nodup : ∀ (l : List Element) (c : Element),
    (l.map Element.eid).Nodup → c ∈ l →
    l.find? (fun d => d.eid == c.eid) = some c := by
  intro l
  induction l with
  | nil => intro c _ hc; cases hc
  | cons d rest ih =>
    intro c hnd hc
    by_cases hd : (d.eid == c.eid) = true
    · have hdc : d = c := by
        have heq : d.eid = c.eid := by simpa using hd
        rcases List.mem_cons.mp hc with rfl | hcr
        · rfl
        · exfalso
          have hm : c.eid ∈ rest.map Element.eid := List.mem_map_of_mem _ hcr
          rw [← heq] at hm
          exact (List.nodup_cons.mp hnd).1 hm
      simp [List.find?_cons, hd, hdc]
    · have hcr : c ∈ rest := by
        rcases List.mem_cons.mp hc with rfl | h
        · exact absurd (by simp) hd
        · exact h
      have hd' : (d.eid == c.eid) = false := by simpa using hd
      rw [List.find?_cons, hd']
      exact ih c (List.nodup_cons.mp hnd).2 hcr

theorem getChildEid_of_mem_nodup (e : Element) (c : Element)
    (hnd : (e.children.map Element.eid).Nodup) (hc : c ∈ e.children) :
    getChildEid e c.eid = some c :=
  find?_eid_of_mem_nodup e.children c hnd hc

theorem setFirstEid_find_self : ∀ (l : List Element) (i : Nat) (c : Element),
    l.find? (fun d => d.eid == i) = some c → setFirstEid l i c = l := by
  intro l
  induction l with
  | nil => intro i c h; cases h
  | cons d rest ih =>
    intro i c h
    by_cases hd : (d.eid == i) = true
    · rw [List.find?_cons, hd] at h
      have hdc : d = c := Option.some.inj h
      have heq : d.eid = i := by simpa using hd
      unfold setFirstEid
      rw [if_pos heq, hdc]
    · have hd' : (d.eid == i) = false := by simpa using hd
      rw [List.find?_cons, hd'] at h
      have hne : ¬d.eid = i := by simpa using hd
      unfold setFirstEid
      rw [if_neg hne, ih i c h]

theorem setChildEid_self (e : Element) (c : Element)
    (h : e.children.find? (fun d => d.eid == c.eid) = some c) :
    setChildEid e c.eid c = e := by
  unfold setChildEid
  rw [setFirstEid_find_self e.children c.eid c h, withChildren_self]

theorem baseMapLookup_unique (B : List Element) (tP tN : String) (n : Option String)
    (b : Element) (hb : b ∈ B) (hbt : b.tag = tP) (hbn : b.findtext tN = n)
    (huniq : ∀ c ∈ B, c.tag = tP → c.findtext tN = n → c = b) :
    baseMapLookup (buildBaseMap B tP tN) n = some b.eid := by
  unfold baseMapLookup
  cases hf : (buildBaseMap B tP tN).reverse.find? (fun p => p.1 == n) with
  | none =>
    exfalso
    have hmem : (b.findtext tN, b.eid) ∈ (buildBaseMap B tP tN).reverse := by
      rw [List.mem_reverse]
      unfold buildBaseMap
      exact List.mem_map.mpr ⟨b, List.mem_filter.mpr ⟨hb, by simp [hbt]⟩, rfl⟩
    have := List.find?_eq_none.mp hf _ hmem
    simp [hbn] at this
  | some p =>
    have hmem : p ∈ (buildBaseMap B tP tN).reverse := List.mem_of_find?_eq_some hf
    rw [List.mem_reverse] at hmem
    unfold buildBaseMap at hmem
    obtain ⟨c, hc, hcp⟩ := List.mem_map.mp hmem
    have hcB : c ∈ B := List.mem_of_mem_filter hc
    have hctag : c.tag = tP := by
      have := List.of_mem_filter hc
      simpa using this
    have hpred := List.find?_some hf
    have hp1 : p.1 = n := by simpa using hpred
    have hcn : c.findtext tN = n := by
      rw [← hp1, ← hcp]
    have hcb : c = b := huniq c hcB hctag hcn
    have hp2 : p.2 = b.eid := by rw [← hcp, hcb]
    show some p.2 = some b.eid
    rw [hp2]

/-- The conservative merge of a structurally identical incoming tree into a
well-formed base package container leaves the base container unchanged. -/
theorem cons_merge_eq (ask : Option String → Bool) (rules : Option (List String))
    (ns : String) :
    ∀ (k : Nat) (n : Element), sizeOf n ≤ k → ∀ b, structEq b n = true →
    wfTree ns b = true →
    merge_packages ask "conservative" ns rules b n = some b := by
  intro k
  induction k with
  | zero =>
    intro n hn
    have := Element.one_le_sizeOf n
    omega
  | succ k ih =>
    intro n hn b hse hwf
    have hwfp := wfTree_parts ns b hwf
    have hnamesND : ((b.children.filter (isPkgTag ns)).map (shortNameOf ns)).Nodup :=
      hwfp.1
    have e1 : (("conservative" : String) == "interactive") = false := by decide
    have e2 : (("conservative" : String) == "latest-wins") = false := by decide
    have e3 : (("conservative" : String) == "rule-based") = false := by decide
    have hloop : ∀ R : List Element, (∀ r ∈ R, sizeOf r < sizeOf n) →
        (∀ r ∈ R, (r.tag == qual ns "AR-PACKAGE") = true →
          ∃ c ∈ b.children, structEq c r = true) →
        mergeLoop ask "conservative" ns rules
          (buildBaseMap b.children (qual ns "AR-PACKAGE") (qual ns "SHORT-NAME"))
          b R = some b := by
      intro R
      induction R with
      | nil => intro _ _; unfold mergeLoop; rfl
      | cons pkg rest ihR =>
        intro hsz hpart
        by_cases htag : (pkg.tag == qual ns "AR-PACKAGE") = true
        · obtain ⟨c, hcB, hcse⟩ := hpart pkg (List.mem_cons_self _ _) htag
          have hname : c.findtext (qual ns "SHORT-NAME")
              = pkg.findtext (qual ns "SHORT-NAME") := findtext_corr c pkg _ hcse
          have hctag : c.tag = qual ns "AR-PACKAGE" := by
            rw [(structEq_parts c pkg hcse).1]
            exact beq_iff_eq.mp htag
          have hcPkgTag : isPkgTag ns c = true := (isPkgTag_iff ns c).mpr hctag
          have huniq : ∀ d ∈ b.children, d.tag = qual ns "AR-PACKAGE" →
              d.findtext (qual ns "SHORT-NAME") = pkg.findtext (qual ns "SHORT-NAME") →
              d = c := by
            intro d hd hdt hdn
            exact List.inj_on_of_nodup_map hnamesND
              (List.mem_filter.mpr ⟨hd, (isPkgTag_iff ns d).mpr hdt⟩)
              (List.mem_filter.mpr ⟨hcB, hcPkgTag⟩)
              (by show d.findtext _ = c.findtext _; rw [hdn, hname])
          have hlook : baseMapLookup
              (buildBaseMap b.children (qual ns "AR-PACKAGE") (qual ns "SHORT-NAME"))
              (pkg.findtext (qual ns "SHORT-NAME")) = some c.eid :=
            baseMapLookup_unique b.children _ _ _ c hcB hctag hname huniq
          unfold mergeLoop
          rw [if_pos htag]
          simp only [hlook]
          have hcond : ((("conservative" : String) == "interactive")
                && ask (pkg.findtext (qual ns "SHORT-NAME"))
              || (("conservative" : String) == "latest-wins")
              || (("conservative" : String) == "rule-based")
                && ruleMatch rules (pkg.findtext (qual ns "SHORT-NAME"))) = false := by
            simp [e1, e2, e3]
          rw [if_neg (by simp [hcond])]
          unfold mergeStep
          have hget : getChildEid b c.eid = some c :=
            getChildEid_of_mem_nodup b c hwfp.2.1 hcB
          simp only [hget]
          rcases findChild_corr c pkg (qual ns "AR-PACKAGES") hcse with
            ⟨hb1, hb2⟩ | ⟨bc, nc, hb1, hb2, hbcse⟩
          · split
            · next bc' nc' hbeq hneq => rw [hb1] at hbeq; cases hbeq
            · next nc' hbeq hneq => rw [hb2] at hneq; cases hneq
            · next hneq =>
                exact ihR (fun r hr => hsz r (List.mem_cons_of_mem _ hr))
                  (fun r hr ht => hpart r (List.mem_cons_of_mem _ hr) ht)
          · split
            · next bc' nc' hbeq hneq =>
                rw [hb1] at hbeq
                rw [hb2] at hneq
                cases Option.some.inj hbeq
                cases Option.some.inj hneq
                have hszn : sizeOf nc ≤ k := by
                  have h1 : sizeOf nc < sizeOf pkg :=
                    sizeOf_lt_of_mem_children (mem_children_of_findChild hb2)
                  have h2 : sizeOf pkg < sizeOf n := hsz pkg (List.mem_cons_self _ _)
                  omega
                have hwfc : wfTree ns c = true := wfTree_child ns b c hwf hcB
                have hwfbc : wfTree ns bc = true :=
                  wfTree_child ns c bc hwfc (mem_children_of_findChild hb1)
                rw [ih nc hszn bc hbcse hwfbc]
                have hfind1 : c.children.find? (fun d => d.eid == bc.eid) = some bc :=
                  find?_eid_of_mem_nodup c.children bc (wfTree_parts ns c hwfc).2.1
                    (mem_children_of_findChild hb1)
                have hfind2 : b.children.find? (fun d => d.eid == c.eid) = some c :=
                  find?_eid_of_mem_nodup b.children c hwfp.2.1 hcB
                simp only [setChildEid_self c bc hfind1, setChildEid_self b c hfind2]
                exact ihR (fun r hr => hsz r (List.mem_cons_of_mem _ hr))
                  (fun r hr ht => hpart r (List.mem_cons_of_mem _ hr) ht)
            · next nc' hbeq hneq => rw [hb1] at hbeq; cases hbeq
            · next hneq => rw [hb2] at hneq; cases hneq
        · unfold mergeLoop
          rw [if_neg htag]
          exact ihR (fun r hr => hsz r (List.mem_cons_of_mem _ hr))
            (fun r hr ht => hpart r (List.mem_cons_of_mem _ hr) ht)
    unfold merge_packages
    refine hloop n.children (fun r hr => sizeOf_lt_of_mem_children hr) ?_
    intro r hr _
    exact structEqList_partner b.children n.children (structEq_parts b n hse).2.2.2 r hr

/-- C4: merging a well-formed document A with a structurally identical copy
of itself under the conservative (keep-first) strategy returns a tree
structurally equal to A — in fact the unchanged base tree: no package is
duplicated and no attribute or text changes.  `wfTree` is the AUTOSAR
per-scope name-uniqueness invariant plus the distinctness of the Python
object identities. -/
theorem C4_idempotent (ask : Option String → Bool) (rules : Option (List String))
    (A B : Element) (hse : structEq A B = true)
    (hwf : wfTree (nsOf A.tag) A = true) :
    ∃ T, merge_trees ask [A, B] "conservative" rules = some T ∧ structEq T A = true := by
  refine ⟨A, ?_, structEq_refl A⟩
  unfold merge_trees
  rcases findChild_corr A B (qual (nsOf A.tag) "AR-PACKAGES") hse with
    ⟨h1, h2⟩ | ⟨bcA, pkgsB, h1, h2, hpse⟩
  · simp [mtLoop, h1, h2]
  · have hget : getChildEid A bcA.eid = some bcA :=
      getChildEid_of_mem_nodup A bcA (wfTree_parts _ A hwf).2.1
        (mem_children_of_findChild h1)
    have hmp : merge_packages ask "conservative" (nsOf A.tag) rules bcA pkgsB
        = some bcA :=
      cons_merge_eq ask rules (nsOf A.tag) (sizeOf pkgsB) pkgsB (Nat.le_refl _) bcA hpse
        (wfTree_child _ A bcA hwf (mem_children_of_findChild h1))
    have hfind : A.children.find? (fun d => d.eid == bcA.eid) = some bcA :=
      find?_eid_of_mem_nodup A.children bcA (wfTree_parts _ A hwf).2.1
        (mem_children_of_findChild h1)
    simp only [mtLoop, h1, h2, Option.map_some']
    simp only [hget, hmp, setChildEid_self A bcA hfind]

/-- A small well-formed document: one package P holding a sub-package Q. -/
def c4DocA : Element :=
  el "AUTOSAR" 0 [el "AR-PACKAGES" 1 [
    el "AR-PACKAGE" 2 [txt "SHORT-NAME" 3 "P",
      el "AR-PACKAGES" 4 [el "AR-PACKAGE" 5 [txt "SHORT-NAME" 6 "Q"]]]]]

/-- A structurally identical copy of `c4DocA` with fresh object identities. -/
def c4DocB : Element :=
  el "AUTOSAR" 10 [el "AR-PACKAGES" 11 [
    el "AR-PACKAGE" 12 [txt "SHORT-NAME" 13 "P",
      el "AR-PACKAGES" 14 [el "AR-PACKAGE" 15 [txt "SHORT-NAME" 16 "Q"]]]]]

/-- C4 witness: the self-merge of the concrete document. -/
theorem C4_witness :
    structEq c4DocA c4DocB = true ∧
    wfTree (nsOf c4DocA.tag) c4DocA = true ∧
    ∃ T, merge_trees (fun _ => true) [c4DocA, c4DocB] "conservative" none = some T ∧
      structEq T c4DocA = true :=
  ⟨by decide, by decide,
   C4_idempotent (fun _ => true) none c4DocA c4DocB (by decide) (by decide)⟩

/-! ## C9: the merged tree is the mutated base tree, aliasing the inputs -/

/-- All object identities in a subtree. -/
def elemIds (e : Element) : List Nat :=
  e.iterAll.map Element.eid

/-- All object identities in a forest. -/
def listIds (l : List Element) : List Nat :=
  (iterAllList l).map Element.eid

theorem iterAllList_append : ∀ l1 l2 : List Element,
    iterAllList (l1 ++ l2) = iterAllList l1 ++ iterAllList l2 := by
  intro l1
  induction l1 with
  | nil => intro l2; rfl
  | cons c cs ih =>
    intro l2
    show c.iterAll ++ iterAllList (cs ++ l2) = (c.iterAll ++ iterAllList cs) ++ iterAllList l2
    rw [ih, List.append_assoc]

theorem listIds_append (l1 l2 : List Element) :
    listIds (l1 ++ l2) = listIds l1 ++ listIds l2 := by
  unfold listIds
  rw [iterAllList_append, List.map_append]

theorem listIds_cons (c : Element) (l : List Element) :
    listIds (c :: l) = elemIds c ++ listIds l := by
  unfold listIds elemIds
  show ((c.iterAll ++ iterAllList l).map Element.eid) = _
  rw [List.map_append]

theorem elemIds_eq (e : Element) : elemIds e = e.eid :: listIds e.children := by
  cases e with
  | mk t a x i cs =>
    unfold elemIds listIds
    rfl

theorem elemIds_withChildren (e : Element) (cs : List Element) :
    elemIds (e.withChildren cs) = e.eid :: listIds cs := by
  cases e with
  | mk t a x i cs0 => exact elemIds_eq _

theorem mem_listIds_of_mem {c : Element} {l : List Element} (hc : c ∈ l) :
    ∀ i ∈ elemIds c, i ∈ listIds l := by
  induction l with
  | nil => cases hc
  | cons d rest ih =>
    intro i hi
    rw [listIds_cons]
    rcases List.mem_cons.mp hc with rfl | hcr
    · exact List.mem_append_left _ hi
    · exact List.mem_append_right _ (ih hcr i hi)

theorem mem_elemIds_of_child {c e : Element} (hc : c ∈ e.children) :
    ∀ i ∈ elemIds c, i ∈ elemIds e := by
  intro i hi
  rw [elemIds_eq]
  exact List.mem_cons_of_mem _ (mem_listIds_of_mem hc i hi)

theorem removeFirstEid_ids : ∀ (l : List Element) (j : Nat),
    ∀ i ∈ listIds (removeFirstEid l j), i ∈ listIds l := by
  intro l
  induction l with
  | nil => intro j i hi; exact hi
  | cons c rest ih =>
    intro j i hi
    unfold removeFirstEid at hi
    by_cases hc : c.eid = j
    · rw [if_pos hc] at hi
      rw [listIds_cons]
      exact List.mem_append_right _ hi
    · rw [if_neg hc] at hi
      rw [listIds_cons] at hi ⊢
      rcases List.mem_append.mp hi with h | h
      · exact List.mem_append_left _ h
      · exact List.mem_append_right _ (ih j i h)

theorem setFirstEid_ids : ∀ (l : List Element) (j : Nat) (c' : Element),
    ∀ i ∈ listIds (setFirstEid l j c'), i ∈ listIds l ∨ i ∈ elemIds c' := by
  intro l
  induction l with
  | nil => intro j c' i hi; exact absurd hi (by simp [listIds, iterAllList])
  | cons c rest ih =>
    intro j c' i hi
    unfold setFirstEid at hi
    by_cases hc : c.eid = j
    · rw [if_pos hc] at hi
      rw [listIds_cons] at hi
      rcases List.mem_append.mp hi with h | h
      · exact Or.inr h
      · exact Or.inl (by rw [listIds_cons]; exact List.mem_append_right _ h)
    · rw [if_neg hc] at hi
      rw [listIds_cons] at hi
      rcases List.mem_append.mp hi with h | h
      · exact Or.inl (by rw [listIds_cons]; exact List.mem_append_left _ h)
      · rcases ih j c' i h with h2 | h2
        · exact Or.inl (by rw [listIds_cons]; exact List.mem_append_right _ h2)
        · exact Or.inr h2

theorem setChildEid_ids (e : Element) (j : Nat) (c' : Element) :
    ∀ i ∈ elemIds (setChildEid e j c'), i ∈ elemIds e ∨ i ∈ elemIds c' := by
  intro i hi
  unfold setChildEid at hi
  rw [elemIds_withChildren] at hi
  rcases List.mem_cons.mp hi with rfl | hi
  · exact Or.inl (by rw [elemIds_eq]; exact List.mem_cons_self _ _)
  · rcases setFirstEid_ids e.children j c' i hi with h | h
    · exact Or.inl (by rw [elemIds_eq]; exact List.mem_cons_of_mem _ h)
    · exact Or.inr h

theorem appendChild_ids (e c : Element) :
    ∀ i ∈ elemIds (appendChild e c), i ∈ elemIds e ∨ i ∈ elemIds c := by
  intro i hi
  unfold appendChild at hi
  rw [elemIds_withChildren, listIds_append] at hi
  rcases List.mem_cons.mp hi with rfl | hi
  · exact Or.inl (by rw [elemIds_eq]; exact List.mem_cons_self _ _)
  · rcases List.mem_append.mp hi with h | h
    · exact Or.inl (by rw [elemIds_eq]; exact List.mem_cons_of_mem _ h)
    · rw [listIds_cons] at h
      rcases List.mem_append.mp h with h2 | h2
      · exact Or.inr h2
      · exact absurd h2 (by simp [listIds, iterAllList])

theorem removeChildEid_ids (e : Element) (j : Nat) (e1 : Element)
    (h : removeChildEid e j = some e1) :
    ∀ i ∈ elemIds e1, i ∈ elemIds e := by
  unfold removeChildEid at h
  by_cases hc : (e.children.any fun c => c.eid == j) = true
  · rw [if_pos hc] at h
    cases Option.some.inj h
    intro i hi
    rw [elemIds_withChildren] at hi
    rcases List.mem_cons.mp hi with rfl | hi
    · rw [elemIds_eq]; exact List.mem_cons_self _ _
    · rw [elemIds_eq]
      exact List.mem_cons_of_mem _ (removeFirstEid_ids e.children j i hi)
  · rw [if_neg hc] at h
    cases h

theorem getChildEid_ids (e : Element) (j : Nat) (c : Element)
    (h : getChildEid e j = some c) : ∀ i ∈ elemIds c, i ∈ elemIds e :=
  mem_elemIds_of_child (List.mem_of_find?_eq_some h)

/-- No call of the package merge ever invents an object: every identity in
its output comes from the base or the incoming side.  Stated jointly for the
three mutually recursive functions, by strong induction on their measure. -/
theorem merge_ids_bound : ∀ k : Nat,
    (∀ (ask : Option String → Bool) (strategy ns : String)
       (rules : Option (List String)) (b npkg : Element), sizeOf npkg ≤ k →
       ∀ r, merge_packages ask strategy ns rules b npkg = some r →
       ∀ i ∈ elemIds r, i ∈ elemIds b ∨ i ∈ elemIds npkg) ∧
    (∀ (ask : Option String → Bool) (strategy ns : String)
       (rules : Option (List String)) (baseMap : List (Option String × Nat))
       (cur : Element) (R : List Element), sizeOf R ≤ k →
       ∀ r, mergeLoop ask strategy ns rules baseMap cur R = some r →
       ∀ i ∈ elemIds r, i ∈ elemIds cur ∨ i ∈ listIds R) ∧
    (∀ (ask : Option String → Bool) (strategy ns : String)
       (rules : Option (List String)) (baseMap : List (Option String × Nat))
       (cur : Element) (beid : Nat) (pkg : Element) (rest : List Element),
       sizeOf pkg + sizeOf rest ≤ k →
       ∀ r, mergeStep ask strategy ns rules baseMap cur beid pkg rest = some r →
       ∀ i ∈ elemIds r, i ∈ elemIds cur ∨ i ∈ elemIds pkg ∨ i ∈ listIds rest) := by
  intro k
  induction k using Nat.strong_induction_on with
  | _ k ih =>
    refine ⟨?_, ?_, ?_⟩
    · intro ask strategy ns rules b npkg hsz r hmp i hi
      unfold merge_packages at hmp
      have hlt : sizeOf npkg.children < k :=
        Nat.lt_of_lt_of_le (Element.sizeOf_children_lt npkg) hsz
      rcases (ih _ hlt).2.1 ask strategy ns rules _ b npkg.children (Nat.le_refl _)
          r hmp i hi with h | h
      · exact Or.inl h
      · exact Or.inr (by rw [elemIds_eq]; exact List.mem_cons_of_mem _ h)
    · intro ask strategy ns rules baseMap cur R hsz r hml i hi
      cases R with
      | nil =>
        unfold mergeLoop at hml
        cases Option.some.inj hml
        exact Or.inl hi
      | cons pkg rest =>
        have hone := Element.one_le_sizeOf pkg
        have hszc : 1 + sizeOf pkg + sizeOf rest ≤ k := by
          simpa using hsz
        have hltRest : sizeOf rest < k := by omega
        have hltStep : sizeOf pkg + sizeOf rest < k := by omega
        unfold mergeLoop at hml
        by_cases htag : (pkg.tag == qual ns "AR-PACKAGE") = true
        · rw [if_pos htag] at hml
          cases hlook : baseMapLookup baseMap (pkg.findtext (qual ns "SHORT-NAME")) with
          | some beid =>
            simp only [hlook] at hml
            by_cases hcond : ((strategy == "interactive")
                  && ask (pkg.findtext (qual ns "SHORT-NAME"))
                || strategy == "latest-wins"
                || (strategy == "rule-based")
                  && ruleMatch rules (pkg.findtext (qual ns "SHORT-NAME"))) = true
            · rw [if_pos hcond] at hml
              cases hrem : removeChildEid cur beid with
              | none => rw [hrem] at hml; cases hml
              | some cur1 =>
                rw [hrem] at hml
                rcases (ih _ hltRest).2.1 ask strategy ns rules baseMap
                    (appendChild cur1 pkg) rest (Nat.le_refl _) r hml i hi with h | h
                · rcases appendChild_ids cur1 pkg i h with h2 | h2
                  · exact Or.inl (removeChildEid_ids cur beid cur1 hrem i h2)
                  · exact Or.inr (by rw [listIds_cons]; exact List.mem_append_left _ h2)
                · exact Or.inr (by rw [listIds_cons]; exact List.mem_append_right _ h)
            · rw [if_neg hcond] at hml
              rcases (ih _ hltStep).2.2 ask strategy ns rules baseMap cur beid pkg rest
                  (Nat.le_refl _) r hml i hi with h | h | h
              · exact Or.inl h
              · exact Or.inr (by rw [listIds_cons]; exact List.mem_append_left _ h)
              · exact Or.inr (by rw [listIds_cons]; exact List.mem_append_right _ h)
          | none =>
            simp only [hlook] at hml
            rcases (ih _ hltRest).2.1 ask strategy ns rules baseMap
                (appendChild cur pkg) rest (Nat.le_refl _) r hml i hi with h | h
            · rcases appendChild_ids cur pkg i h with h2 | h2
              · exact Or.inl h2
              · exact Or.inr (by rw [listIds_cons]; exact List.mem_append_left _ h2)
            · exact Or.inr (by rw [listIds_cons]; exact List.mem_append_right _ h)
        · rw [if_neg htag] at hml
          rcases (ih _ hltRest).2.1 ask strategy ns rules baseMap cur rest
              (Nat.le_refl _) r hml i hi with h | h
          · exact Or.inl h
          · exact Or.inr (by rw [listIds_cons]; exact List.mem_append_right _ h)
    · intro ask strategy ns rules baseMap cur beid pkg rest hsz r hms i hi
      have hone := Element.one_le_sizeOf pkg
      have hltRest : sizeOf rest < k := by omega
      unfold mergeStep at hms
      cases hget : getChildEid cur beid with
      | none => rw [hget] at hms; cases hms
      | some base =>
        simp only [hget] at hms
        split at hms
        · next bc nc hb hn =>
            cases hmp : merge_packages ask strategy ns rules bc nc with
            | none => rw [hmp] at hms; cases hms
            | some bc1 =>
              rw [hmp] at hms
              have hltnc : sizeOf nc < k := by
                have h1 : sizeOf nc < sizeOf pkg :=
                  sizeOf_lt_of_mem_children (mem_children_of_findChild hn)
                omega
              have hbc1 : ∀ j ∈ elemIds bc1, j ∈ elemIds bc ∨ j ∈ elemIds nc :=
                (ih _ hltnc).1 ask strategy ns rules bc nc (Nat.le_refl _) bc1 hmp
              rcases (ih _ hltRest).2.1 ask strategy ns rules baseMap
                  (setChildEid cur beid (setChildEid base bc.eid bc1)) rest
                  (Nat.le_refl _) r hms i hi with h | h
              · rcases setChildEid_ids cur beid _ i h with h2 | h2
                · exact Or.inl h2
                · rcases setChildEid_ids base bc.eid bc1 i h2 with h3 | h3
                  · exact Or.inl (getChildEid_ids cur beid base hget i h3)
                  · rcases hbc1 i h3 with h4 | h4
                    · exact Or.inl (getChildEid_ids cur beid base hget i
                        (mem_elemIds_of_child (mem_children_of_findChild hb) i h4))
                    · exact Or.inr (Or.inl
                        (mem_elemIds_of_child (mem_children_of_findChild hn) i h4))
              · exact Or.inr (Or.inr h)
        · next nc hb hn =>
            rcases (ih _ hltRest).2.1 ask strategy ns rules baseMap
                (setChildEid cur beid (appendChild base nc)) rest
                (Nat.le_refl _) r hms i hi with h | h
            · rcases setChildEid_ids cur beid _ i h with h2 | h2
              · exact Or.inl h2
              · rcases appendChild_ids base nc i h2 with h3 | h3
                · exact Or.inl (getChildEid_ids cur beid base hget i h3)
                · exact Or.inr (Or.inl
                    (mem_elemIds_of_child (mem_children_of_findChild hn) i h3))
            · exact Or.inr (Or.inr h)
        · next hn =>
            rcases (ih _ hltRest).2.1 ask strategy ns rules baseMap cur rest
                (Nat.le_refl _) r hms i hi with h | h
            · exact Or.inl h
            · exact Or.inr (Or.inr h)

theorem withChildren_fields (e : Element) (cs : List Element) :
    (e.withChildren cs).eid = e.eid ∧ (e.withChildren cs).tag = e.tag ∧
    (e.withChildren cs).attrib = e.attrib ∧ (e.withChildren cs).text = e.text := by
  cases e; exact ⟨rfl, rfl, rfl, rfl⟩

/-- The tree-fold of `merge_trees` returns the base root object (same
identity, tag, attributes, text — only its children list is mutated) and
introduces no identity that is not in the base or a later input tree. -/
theorem mtLoop_spec (ask : Option String → Bool) (strategy : String)
    (rules : Option (List String)) (ns : String) :
    ∀ (rest : List Element) (baseRoot : Element) (pe : Option Nat) (r : Element),
    mtLoop ask strategy rules ns baseRoot pe rest = some r →
    (r.eid = baseRoot.eid ∧ r.tag = baseRoot.tag ∧ r.attrib = baseRoot.attrib ∧
      r.text = baseRoot.text) ∧
    (∀ i ∈ elemIds r, i ∈ elemIds baseRoot ∨ i ∈ listIds rest) := by
  intro rest
  induction rest with
  | nil =>
    intro baseRoot pe r h
    unfold mtLoop at h
    cases Option.some.inj h
    exact ⟨⟨rfl, rfl, rfl, rfl⟩, fun i hi => Or.inl hi⟩
  | cons t rest ih =>
    intro baseRoot pe r h
    unfold mtLoop at h
    cases hf : t.findChild (qual ns "AR-PACKAGES") with
    | none =>
      simp only [hf] at h
      obtain ⟨hfields, hids⟩ := ih baseRoot pe r h
      refine ⟨hfields, fun i hi => ?_⟩
      rcases hids i hi with h2 | h2
      · exact Or.inl h2
      · exact Or.inr (by rw [listIds_cons]; exact List.mem_append_right _ h2)
    | some pkgs =>
      simp only [hf] at h
      have hpkgsT : ∀ i ∈ elemIds pkgs, i ∈ elemIds t :=
        mem_elemIds_of_child (mem_children_of_findChild hf)
      cases pe with
      | none =>
        obtain ⟨hfields, hids⟩ := ih (appendChild baseRoot pkgs) (some pkgs.eid) r h
        have hw := withChildren_fields baseRoot (baseRoot.children ++ [pkgs])
        refine ⟨⟨hfields.1.trans hw.1, hfields.2.1.trans hw.2.1,
          hfields.2.2.1.trans hw.2.2.1, hfields.2.2.2.trans hw.2.2.2⟩, fun i hi => ?_⟩
        rcases hids i hi with h2 | h2
        · rcases appendChild_ids baseRoot pkgs i h2 with h3 | h3
          · exact Or.inl h3
          · exact Or.inr (by
              rw [listIds_cons]
              exact List.mem_append_left _ (hpkgsT i h3))
        · exact Or.inr (by rw [listIds_cons]; exact List.mem_append_right _ h2)
      | some be =>
        cases hget : getChildEid baseRoot be with
        | none => simp only [hget] at h; cases h
        | some basePkgs =>
          simp only [hget] at h
          cases hmp : merge_packages ask strategy ns rules basePkgs pkgs with
          | none => rw [hmp] at h; cases h
          | some bp1 =>
            simp only [hmp] at h
            obtain ⟨hfields, hids⟩ := ih (setChildEid baseRoot be bp1) (some be) r h
            have hw := withChildren_fields baseRoot (setFirstEid baseRoot.children be bp1)
            have hbp1 : ∀ j ∈ elemIds bp1, j ∈ elemIds basePkgs ∨ j ∈ elemIds pkgs :=
              (merge_ids_bound (sizeOf pkgs)).1 ask strategy ns rules basePkgs pkgs
                (Nat.le_refl _) bp1 hmp
            refine ⟨⟨hfields.1.trans hw.1, hfields.2.1.trans hw.2.1,
              hfields.2.2.1.trans hw.2.2.1, hfields.2.2.2.trans hw.2.2.2⟩,
              fun i hi => ?_⟩
            rcases hids i hi with h2 | h2
            · rcases setChildEid_ids baseRoot be bp1 i h2 with h3 | h3
              · exact Or.inl h3
              · rcases hbp1 i h3 with h4 | h4
                · exact Or.inl (getChildEid_ids baseRoot be basePkgs hget i h4)
                · exact Or.inr (by
                    rw [listIds_cons]
                    exact List.mem_append_left _ (hpkgsT i h4))
            · exact Or.inr (by rw [listIds_cons]; exact List.mem_append_right _ h2)

/-- C9: `merge_trees` returns the first input tree's root object — only its
children list mutated in place (identity, tag, attributes and text are the
base root's) — and every object identity in the result comes from an input
tree: package subtrees are inserted by reference, never copied.  In
particular no input tree is guaranteed unchanged, since the result aliases
them. -/
theorem C9_merge_returns_base (ask : Option String → Bool) (strategy : String)
    (rules : Option (List String)) (t0 : Element) (rest : List Element) (r : Element)
    (h : merge_trees ask (t0 :: rest) strategy rules = some r) :
    r.eid = t0.eid ∧ r.tag = t0.tag ∧ r.attrib = t0.attrib ∧ r.text = t0.text ∧
    (∀ i ∈ elemIds r, i ∈ elemIds t0 ∨ i ∈ listIds rest) := by
  unfold merge_trees at h
  obtain ⟨⟨h1, h2, h3, h4⟩, h5⟩ :=
    mtLoop_spec ask strategy rules (nsOf t0.tag) rest t0 _ r h
  exact ⟨h1, h2, h3, h4, h5⟩

/-- A one-package document for the C9 witness. -/
def c9Doc : Element :=
  el "AUTOSAR" 7 [el "AR-PACKAGES" 8 [el "AR-PACKAGE" 9 [txt "SHORT-NAME" 10 "Z"]]]

/-- C9 witness: a concrete merge returning the base tree object. -/
theorem C9_witness :
    merge_trees (fun _ => true) [c9Doc] "latest-wins" none = some c9Doc ∧
    (c9Doc.eid = c9Doc.eid ∧ c9Doc.tag = c9Doc.tag ∧ c9Doc.attrib = c9Doc.attrib ∧
      c9Doc.text = c9Doc.text ∧
      (∀ i ∈ elemIds c9Doc, i ∈ elemIds c9Doc ∨ i ∈ listIds [])) :=
  ⟨by decide,
   C9_merge_returns_base (fun _ => true) "latest-wins" none c9Doc [] c9Doc (by decide)⟩

end ARXML
